import Mathlib

/-!
Verification of the RSTA unified OCR + translation inference service
(`scripts/serve_unified.py`, `scripts/server/state.py`,
`scripts/server/translate_service.py`, `scripts/server/ocr_service.py`,
`scripts/server/logging_config.py`, `rsta/config.py`).

The Python source is shallowly embedded: pure request handlers become Lean
functions over explicit state, external libraries (base64 decoding, the OCR
and llama inference calls, the filesystem) become oracle parameters, and the
double-checked-locking engine registry becomes an interleaving step relation.
-/

namespace RSTA

/-! ## Python string primitives used by the handlers -/

/-- Characters stripped by Python `str.strip()` (ASCII whitespace; the
service only ever strips request text and model completions). -/
def isPySpace (c : Char) : Bool :=
  c = ' ' || c = '\t' || c = '\n' || c = '\r' || c = '\x0b' || c = '\x0c'

/-- Python `str.strip()`. -/
def pyStrip (s : String) : String :=
  ⟨((s.data.dropWhile isPySpace).reverse.dropWhile isPySpace).reverse⟩

/-- Python truthiness chain `q or text or ""` on two optional strings:
`None` and `""` are falsy, any other string is truthy. -/
def pyOrStr (q t : Option String) : String :=
  match q with
  | some s => if s = "" then (match t with | some u => u | none => "") else s
  | none => match t with | some u => u | none => ""

/-- Python `str.lower()` (ASCII case folding; quantization tags and file
names in this code path are ASCII). -/
def lowerStr (s : String) : String := ⟨s.data.map Char.toLower⟩

/-- `List` prefix test, Boolean form. -/
def listIsPrefixOf : List Char → List Char → Bool
  | [], _ => true
  | _ :: _, [] => false
  | a :: as, b :: bs => a = b && listIsPrefixOf as bs

/-- Contiguous-substring test on character lists (Python `sub in s`). -/
def listContainsSub (sub : List Char) : List Char → Bool
  | [] => listIsPrefixOf sub []
  | c :: cs => listIsPrefixOf sub (c :: cs) || listContainsSub sub cs

/-- Python `sub in s` on strings. -/
def strContains (s sub : String) : Bool := listContainsSub sub.data s.data

/-- Python `s.endswith(suffix)`. -/
def strEndsWith (s suffix : String) : Bool :=
  listIsPrefixOf suffix.data.reverse s.data.reverse

/-! ## TranslationModelSlot (`ServiceState.ensure_translate_model`) -/

/-- The translation model slot of `ServiceState`: `translate_model`,
`translate_repo`, `translate_file`.  The loaded llama handle is opaque,
modelled as a `Nat` tag. -/
structure TransSlot where
  model : Option Nat
  repo : Option String
  file : Option String
  deriving DecidableEq, Repr

/-- Result of one invocation of `load_translate_model(config)` (external
resolution/download path), the `(model, repo, filename)` triple. -/
structure LoadTranslateResult where
  model : Option Nat
  repo : Option String
  file : Option String
  deriving DecidableEq, Repr

/-- `ServiceState.ensure_translate_model`: fast path if the slot is filled,
otherwise (under `_translate_load_lock`, double-checked) invoke
`load_translate_model` once and fill the slot on success.  Returns the
boolean result, the state after the call, and how many times
`load_translate_model` was invoked. -/
def ensureTranslateModel (s : TransSlot) (loadResult : LoadTranslateResult) :
    Bool × TransSlot × Nat :=
  match s.model with
  | some _ => (true, s, 0)
  | none =>
    match loadResult.model with
    | some m => (true, ⟨some m, loadResult.repo, loadResult.file⟩, 1)
    | none => (false, s, 1)

/-! ## POST /translate handler -/

/-- Outcome of the worker-pool inference call in `translate`:
`result["choices"][0]["text"]`, a `FuturesTimeoutError`, or another
exception. -/
inductive InferOutcome where
  | ok (completionText : String)
  | timeout
  | fail (msg : String)
  deriving DecidableEq, Repr

/-- What the `POST /translate` handler did: the HTTP response
(status/detail on error, `translatedText` on success), whether
`ensure_translate_model` was invoked, and whether inference was invoked. -/
structure TranslateOutcome where
  response : Except (Nat × String) String
  ensureCalled : Bool
  inferCalled : Bool
  deriving Repr

/-- The `POST /translate` handler (`serve_unified.translate`), with the
model-slot state and the inference call abstracted: `translateLoading` is
`STATE.translate_loading`, `ensureResult` the value
`STATE.ensure_translate_model()` would return, `timeoutSecs` the
`TRANSLATE_TIMEOUT` setting, `infer` the inference outcome. -/
def translateEndpoint (q t : Option String) (translateLoading : Bool)
    (ensureResult : Bool) (timeoutSecs : Nat) (infer : InferOutcome) :
    TranslateOutcome :=
  let text := pyStrip (pyOrStr q t)
  if text = "" then
    ⟨.error (400, "Empty text"), false, false⟩
  else if translateLoading then
    ⟨.error (503, "翻译模型正在加载中，请稍候..."), false, false⟩
  else if ensureResult = false then
    ⟨.error (503, "翻译模型未找到，请先在设置中下载翻译模型"), true, false⟩
  else
    match infer with
    | .ok completionText => ⟨.ok (pyStrip completionText), true, true⟩
    | .timeout =>
        ⟨.error (504, "Translation timeout (" ++ toString timeoutSecs ++ "s)"),
          true, true⟩
    | .fail msg => ⟨.error (500, "Translation failed: " ++ msg), true, true⟩

/-! ## POST /ocr handler -/

/-- What the `POST /ocr` handler did: the HTTP response (`(text,
model_type)` on success) and whether `do_ocr` (hence `load_ocr_engine` and
the engine cache) was reached. -/
structure OcrEndpointOutcome where
  response : Except (Nat × String) (String × String)
  engineCacheReached : Bool
  deriving Repr

/-- The `POST /ocr` handler (`serve_unified.ocr`): 503 while
`STATE.ocr_loading`; else `base64.b64decode(req.image)` (external,
abstracted as `decodeResult`), 400 on decode failure; else `do_ocr`
(abstracted as `ocrResult`), 500 on failure. -/
def ocrEndpoint (modelType : String) (ocrLoading : Bool)
    (decodeResult : Option (List Nat)) (ocrResult : Except String String) :
    OcrEndpointOutcome :=
  if ocrLoading then
    ⟨.error (503, "OCR 模型正在加载中，请稍候..."), false⟩
  else
    match decodeResult with
    | none => ⟨.error (400, "Invalid base64 image"), false⟩
    | some _ =>
        match ocrResult with
        | .error e => ⟨.error (500, "OCR failed: " ++ e), true⟩
        | .ok text => ⟨.ok (text, modelType), true⟩

/-- HTTP status of an OCR endpoint outcome (200 on success). -/
def OcrEndpointOutcome.status (o : OcrEndpointOutcome) : Nat :=
  match o.response with
  | .ok _ => 200
  | .error (code, _) => code

/-! ## EngineRegistry slow path (`ServiceState.load_ocr_engine`) -/

/-- Cache key `f"{model_type}_{lang}"`. -/
def cacheKey (modelType lang : String) : String := modelType ++ "_" ++ lang

/-- Sixty equals signs, the source's `'='*60` banner line. -/
def eq60 : String := ⟨List.replicate 60 '='⟩

/-- The `RuntimeError` message raised when PaddleOCR weights are missing and
`auto_download` is disabled; contains the model storage directory
`paddlex_home / 'official_models'`. -/
def modelMissingMsg (paddlexHome : String) : String :=
  "\n" ++ eq60 ++ "\n" ++ "OCR 模型未找到！\n" ++ eq60 ++ "\n\n" ++
  "模型目录: " ++ (paddlexHome ++ "/official_models") ++ "\n\n" ++
  "请在设置页面点击下载按钮下载 OCR 模型\n" ++ eq60 ++ "\n"

/-- The `RuntimeError` raised when neither RapidOCR nor PaddleOCR can be
imported. -/
def ocrNotInstalledMsg : String :=
  "OCR 引擎未安装，请安装 rapidocr-onnxruntime 或 paddleocr"

/-- Environment of one `load_ocr_engine` call: availability of each backend
adapter, the weight-file existence check, and the relevant configuration.
`rapidOpenvino` / `rapidOnnx` are true when that RapidOCR import succeeds
and its constructor does not raise; `paddleConstruct` is the outcome of the
`_safe_create_ocr(PaddleOCR, kwargs)` call. -/
structure OcrEnv where
  rapidOpenvino : Bool
  rapidOnnx : Bool
  paddleImportable : Bool
  hasModels : Bool
  autoDownload : Bool
  paddlexHome : String
  paddleConstruct : Except String Unit
  deriving Repr

/-- Outcome of `load_ocr_engine`: the result (error message, or the backend
discriminator of the returned engine), the cache contents afterwards, and
how many `PaddleOCR(**kwargs)` constructions were attempted. -/
structure OcrLoadOutcome where
  result : Except String String
  cacheAfter : List String
  paddleConstructAttempts : Nat
  deriving Repr

/-- `ServiceState.load_ocr_engine(model_type, lang)`: lock-free fast path on
the cache, then (under `_ocr_lock`, double-checked — sequentialised here;
the interleaved registry is modelled separately below) the ordered backend
chain RapidOCR-OpenVINO, RapidOCR-ONNX, PaddleOCR, with the weight-file /
`auto_download` guard before the PaddleOCR fallback. -/
def loadOcrEngine (cache : List String) (env : OcrEnv)
    (modelType lang : String) : OcrLoadOutcome :=
  let key := cacheKey modelType lang
  if cache.contains key then ⟨.ok "cached", cache, 0⟩
  else if env.rapidOpenvino then ⟨.ok "rapidocr", cache ++ [key], 0⟩
  else if env.rapidOnnx then ⟨.ok "rapidocr", cache ++ [key], 0⟩
  else if env.paddleImportable = false then ⟨.error ocrNotInstalledMsg, cache, 0⟩
  else if env.hasModels = false && env.autoDownload = false then
    ⟨.error (modelMissingMsg env.paddlexHome), cache, 0⟩
  else
    match env.paddleConstruct with
    | .ok _ => ⟨.ok "paddleocr", cache ++ [key], 1⟩
    | .error e => ⟨.error e, cache, 1⟩

/-! ## Translation model file resolution (`translate_service.load_translate_model`) -/

/-- Stable insertion into a list sorted by ascending name length (Python
`list.sort(key=len)` is stable; equal-length items keep original order). -/
def insertByLen (x : String) : List String → List String
  | [] => [x]
  | y :: ys => if y.length < x.length then y :: insertByLen x ys else x :: y :: ys

/-- Stable sort by ascending name length, modelling
`matched.sort(key=lambda p: len(p.name))` / `matched.sort(key=len)`. -/
def sortByLen : List String → List String
  | [] => []
  | x :: xs => insertByLen x (sortByLen xs)

/-- The local candidates whose (lowercased) file name contains the
lowercased quantization tag. -/
def localMatches (candidates : List String) (quant : String) : List String :=
  candidates.filter fun p => strContains (lowerStr p) (lowerStr quant)

/-- `find_local_gguf` from `load_translate_model`, over the list of `.gguf`
file names found under the model directory: no candidate → `None`; a single
candidate → that file regardless of tag; otherwise the quant-matching
candidates sorted by name length, shortest first. -/
def findLocalGguf (candidates : List String) (quant : String) : Option String :=
  match candidates with
  | [] => none
  | [c] => some c
  | _ :: _ :: _ =>
    match sortByLen (localMatches candidates quant) with
    | [] => none
    | m :: _ => some m

/-- The remote repository files that end in `.gguf` (case-insensitive) and
contain the quantization tag (case-insensitive). -/
def remoteMatches (files : List String) (quant : String) : List String :=
  (files.filter fun f => strEndsWith (lowerStr f) ".gguf").filter
    fun f => strContains (lowerStr f) (lowerStr quant)

/-- The remote-listing branch of `load_translate_model`: filter the
repository file list to `.gguf` files containing the quant tag, sort by
length, take the first; if nothing matches, `filename` stays empty and the
function returns no model. -/
def pickRemoteGguf (files : List String) (quant : String) : Option String :=
  match sortByLen (remoteMatches files quant) with
  | [] => none
  | m :: _ => some m

/-! ## Log ring buffer (`logging_config.LogBuffer`, `POST /logs/clear`) -/

/-- One entry of the log ring buffer (`id`, `level`, `message`; the wall
clock timestamp is external and omitted). -/
structure LogEntry where
  id : Nat
  level : String
  message : String
  deriving DecidableEq, Repr

/-- `LogBuffer`: a `deque(maxlen=max_size)` of entries plus the
`_last_id` counter. -/
structure LogBuffer where
  buffer : List LogEntry
  lastId : Nat
  maxSize : Nat
  deriving DecidableEq, Repr

/-- `LogBuffer.add`: increment `_last_id`, append the entry; the deque
silently drops the oldest entries beyond `max_size`. -/
def LogBuffer.add (b : LogBuffer) (level message : String) : LogBuffer :=
  let newId := b.lastId + 1
  let grown := b.buffer ++ [⟨newId, level, message⟩]
  { b with
    buffer := if b.maxSize < grown.length then
        grown.drop (grown.length - b.maxSize) else grown,
    lastId := newId }

/-- `POST /logs/clear` (and `LogBuffer.clear`): empty the buffer and reset
`_last_id` to 0. -/
def LogBuffer.clearAll (b : LogBuffer) : LogBuffer :=
  { b with buffer := [], lastId := 0 }

/-- `LogBuffer.get_all(since_id)`: the entries with `id > since_id`. -/
def LogBuffer.getAll (b : LogBuffer) (sinceId : Nat) : List LogEntry :=
  b.buffer.filter fun e => sinceId < e.id

/-- A fresh process log buffer (`LogBuffer(max_size=500)`). -/
def logBufferInit : LogBuffer := ⟨[], 0, 500⟩

/-- Apply a sequence of `add` operations (level/message pairs) in order. -/
def LogBuffer.addAll (b : LogBuffer) (adds : List (String × String)) :
    LogBuffer :=
  adds.foldl (fun acc lm => acc.add lm.1 lm.2) b

/-- The invariant that every buffered entry's id is at most `_last_id`. -/
def LogBuffer.IdsBounded (b : LogBuffer) : Prop :=
  ∀ e ∈ b.buffer, e.id ≤ b.lastId

/-! ## `do_ocr` image size gate (`ocr_service.do_ocr`) -/

/-- The upscale step of `do_ocr`: if the smaller side is below
`min_side_for_upscale`, scale both sides by `minSide / min(w, h)` and
truncate to integers.  The source computes `int(width * (MIN / min))` in
floating point; it is modelled here by the exact value
`width * minSide / min(w, h)` with truncating division. -/
def upscaledDims (w h minSide : Nat) : Nat × Nat :=
  if min w h < minSide then
    (w * minSide / min w h, h * minSide / min w h)
  else (w, h)

/-- What `do_ocr` did: its result (recognised text or a raised error) and
whether the engine load and the engine inference call happened. -/
structure DoOcrOutcome where
  result : Except String String
  engineLoadCalled : Bool
  inferCalled : Bool
  deriving Repr

/-- `do_ocr(image_bytes, model_type, lang)`: load the engine first (an
exception propagates), decode and upscale the image, return `""` without
inference when a side is still below `MIN_OCR_SIZE = 32`, otherwise cap the
larger side at `max_side` (which does not affect control flow) and run the
engine, whose recognised text is the oracle `inferText`. -/
def doOcr (loadResult : Except String Unit) (minSideForUpscale w h : Nat)
    (inferText : String) : DoOcrOutcome :=
  match loadResult with
  | .error e => ⟨.error e, true, false⟩
  | .ok _ =>
    let dims := upscaledDims w h minSideForUpscale
    if dims.1 < 32 ∨ dims.2 < 32 then ⟨.ok "", true, false⟩
    else ⟨.ok inferText, true, true⟩

/-! ## LoadingStatusTracker and BackgroundPreloader
(`serve_unified.lifespan.background_preload`, `loading_status`,
`preload_ocr`) -/

/-- The mutable fields of `ServiceState` that the preloader and the status
endpoint touch. -/
structure SvcState where
  ocrEngines : List String
  translateModel : Option Nat
  translateFile : Option String
  ocrLoading : Bool
  ocrReady : Bool
  translateLoading : Bool
  translateReady : Bool
  loadingError : Option String
  deriving Repr

/-- `ServiceState.__init__`: empty cache, empty slot, all flags false, no
error. -/
def initSvcState : SvcState := ⟨[], none, none, false, false, false, false, none⟩

/-- The `ocr` object of the `GET /loading_status` response. -/
structure OcrStatusView where
  loading : Bool
  ready : Bool
  loadedModels : List String
  deriving Repr

/-- The `translate` object of the `GET /loading_status` response. -/
structure TranslateStatusView where
  loading : Bool
  ready : Bool
  modelFile : Option String
  deriving Repr

/-- The `GET /loading_status` response. -/
structure StatusView where
  ocr : OcrStatusView
  translate : TranslateStatusView
  error : Option String
  deriving Repr

/-- The `GET /loading_status` handler: `ready` is
`STATE.ocr_ready or len(STATE.ocr_engines) > 0`, resp.
`STATE.translate_ready or STATE.translate_model is not None`. -/
def loadingStatus (s : SvcState) : StatusView :=
  ⟨⟨s.ocrLoading, s.ocrReady || !s.ocrEngines.isEmpty, s.ocrEngines⟩,
   ⟨s.translateLoading, s.translateReady || s.translateModel.isSome,
     s.translateFile⟩,
   s.loadingError⟩

/-- Outcome of the background preloader's primary OCR load attempt. -/
inductive OcrAttemptOutcome where
  | success (key : String)
  | failure (msg : String)
  deriving Repr

/-- `background_preload`, first phase, entry: `STATE.ocr_loading = True`
before the load starts. -/
def bgOcrStart (s : SvcState) : SvcState := { s with ocrLoading := true }

/-- `background_preload`, first phase, body: on success
`load_ocr_engine` inserted the engine and `STATE.ocr_ready = True`; on
failure `STATE.loading_error` is set. -/
def bgOcrFinish (out : OcrAttemptOutcome) (s : SvcState) : SvcState :=
  match out with
  | .success key =>
      { s with ocrEngines := s.ocrEngines ++ [key], ocrReady := true }
  | .failure msg =>
      { s with loadingError := some ("OCR 加载失败: " ++ msg) }

/-- `background_preload`, first phase, `finally:` block —
`STATE.ocr_loading = False` on every exit path. -/
def bgOcrEnd (s : SvcState) : SvcState := { s with ocrLoading := false }

/-- The whole background OCR load attempt. -/
def bgOcrPhase (out : OcrAttemptOutcome) (s : SvcState) : SvcState :=
  bgOcrEnd (bgOcrFinish out (bgOcrStart s))

/-- The `POST /ocr/preload` handler: a request-triggered load that calls
`STATE.load_ocr_engine` directly.  It never writes the loading flags; the
returned state differs from the input only in the engine cache. -/
def preloadOcrEndpoint (s : SvcState) (loadOut : Except String String)
    (modelType lang : String) :
    Except (Nat × String) (String × String) × SvcState :=
  let key := cacheKey modelType lang
  if s.ocrEngines.contains key then (.ok ("already_loaded", key), s)
  else
    match loadOut with
    | .ok _ =>
        (.ok ("loaded", key), { s with ocrEngines := s.ocrEngines ++ [key] })
    | .error e => (.error (500, "Failed to load OCR model: " ++ e), s)

/-! ## EngineRegistry under concurrency (double-checked locking in
`load_ocr_engine`) -/

/-- Program counter of one thread executing `load_ocr_engine`:
`start` — about to do the lock-free fast-path cache check;
`waitLock` — fast path missed, waiting on `_ocr_lock`;
`locked` — holding the lock, about to re-check the cache;
`constructed` — re-check missed and backend construction finished (the
construction side effect has been counted) but the engine not yet inserted;
`done` — returned. -/
inductive RegPC where
  | start
  | waitLock
  | locked
  | constructed
  | done
  deriving DecidableEq, Repr

/-- Shared registry state plus the program counters of `n` concurrent
callers: the cache (which keys hold an engine), the single registry-wide
`_ocr_lock` (its holder, if held), and the per-key construction
side-effect counter of the claim. -/
structure RegState (n : Nat) where
  cache : String → Bool
  lock : Option (Fin n)
  counter : String → Nat
  pc : Fin n → RegPC

/-- Initial state: empty cache, lock free, no constructions, all threads
about to call `load_ocr_engine`. -/
def regInit (n : Nat) : RegState n :=
  ⟨fun _ => false, none, fun _ => 0, fun _ => .start⟩

/-- One atomic step of thread `i` (requesting key `keys i`) through
`load_ocr_engine`: lock-free fast-path hit or miss; acquisition of the
registry-wide lock; re-check under the lock, a hit releasing and
returning; construction (increments the side-effect counter of the key);
insertion into the cache with lock release. -/
inductive RegStep (n : Nat) (keys : Fin n → String) :
    RegState n → RegState n → Prop where
  | fastHit (i : Fin n) (s : RegState n) :
      s.pc i = .start → s.cache (keys i) = true →
      RegStep n keys s { s with pc := Function.update s.pc i .done }
  | fastMiss (i : Fin n) (s : RegState n) :
      s.pc i = .start → s.cache (keys i) = false →
      RegStep n keys s { s with pc := Function.update s.pc i .waitLock }
  | acquire (i : Fin n) (s : RegState n) :
      s.pc i = .waitLock → s.lock = none →
      RegStep n keys s
        { s with lock := some i, pc := Function.update s.pc i .locked }
  | recheckHit (i : Fin n) (s : RegState n) :
      s.pc i = .locked → s.cache (keys i) = true →
      RegStep n keys s
        { s with lock := none, pc := Function.update s.pc i .done }
  | construct (i : Fin n) (s : RegState n) :
      s.pc i = .locked → s.cache (keys i) = false →
      RegStep n keys s
        { s with
          counter := fun k =>
            if k = keys i then s.counter k + 1 else s.counter k,
          pc := Function.update s.pc i .constructed }
  | insert (i : Fin n) (s : RegState n) :
      s.pc i = .constructed →
      RegStep n keys s
        { s with
          cache := fun k => if k = keys i then true else s.cache k,
          lock := none,
          pc := Function.update s.pc i .done }

/-- Reachability from the initial state under arbitrary interleaving of
the `n` callers. -/
def RegReachable (n : Nat) (keys : Fin n → String) (s : RegState n) : Prop :=
  Relation.ReflTransGen (RegStep n keys) (regInit n) s

/-- The inductive invariant of the double-checked-locking discipline. -/
structure RegInv (n : Nat) (keys : Fin n → String) (s : RegState n) :
    Prop where
  lockHolder : ∀ i, s.pc i = .locked ∨ s.pc i = .constructed →
    s.lock = some i
  notCachedConstr : ∀ i, s.pc i = .constructed → s.cache (keys i) = false
  cachedCount : ∀ k, s.cache k = true → s.counter k = 1
  constrCount : ∀ i, s.pc i = .constructed → s.counter (keys i) = 1
  idleCount : ∀ k, s.cache k = false →
    (∀ i, s.pc i = .constructed → keys i ≠ k) → s.counter k = 0
  doneCached : ∀ i, s.pc i = .done → s.cache (keys i) = true
  cacheRequested : ∀ k, s.cache k = true → ∃ i, keys i = k

/-- Witness trace, step 0: two threads both requesting `mobile_en`. -/
def regW0 : RegState 2 := regInit 2

/-- Witness trace after thread 0's fast-path miss. -/
def regW1 : RegState 2 :=
  { regW0 with pc := Function.update regW0.pc 0 .waitLock }

/-- Witness trace after thread 0 acquires the lock. -/
def regW2 : RegState 2 :=
  { regW1 with lock := some 0, pc := Function.update regW1.pc 0 .locked }

/-- Witness trace after thread 0 constructs the engine. -/
def regW3 : RegState 2 :=
  { regW2 with
    counter := fun k =>
      if k = "mobile_en" then regW2.counter k + 1 else regW2.counter k,
    pc := Function.update regW2.pc 0 .constructed }

/-- Witness trace after thread 0 inserts and releases the lock. -/
def regW4 : RegState 2 :=
  { regW3 with
    cache := fun k => if k = "mobile_en" then true else regW3.cache k,
    lock := none,
    pc := Function.update regW3.pc 0 .done }

/-- Witness trace after thread 1's fast-path hit. -/
def regW5 : RegState 2 :=
  { regW4 with pc := Function.update regW4.pc 1 .done }

/-! ## Configuration merging (`rsta/config.py` and
`serve_unified.update_config`) -/

/-- A JSON configuration value: an opaque scalar or array literal (the
merge code never looks inside non-dict values), or an object modelled as
an insertion-ordered association list, as a Python dict is. -/
inductive J where
  | atom (lit : String)
  | obj (fields : List (String × J))
  deriving Repr

/-- Python `d.get(k)` on an object's field list. -/
def lookupJ : List (String × J) → String → Option J
  | [], _ => none
  | (k2, v) :: rest, k => if k2 = k then some v else lookupJ rest k

/-- Python `d[k] = v`: replace the entry in place if the key exists, else
append it. -/
def setJ : List (String × J) → String → J → List (String × J)
  | [], k, v => [(k, v)]
  | (k2, v2) :: rest, k, v =>
    if k2 = k then (k2, v) :: rest else (k2, v2) :: setJ rest k v

mutual

/-- The value `merge_config` assigns for one key: when the override value
and the base's current value are both dicts, their recursive merge,
otherwise the override value. -/
def jmergeVal : J → Option J → J
  | J.obj ovs, some (J.obj bvs) => J.obj (jmergeFields bvs ovs)
  | v, _ => v

/-- `merge_config(base, override)` of `rsta/config.py`: iterate over
`override`'s entries, assigning `jmergeVal` of each against the evolving
result. -/
def jmergeFields : List (String × J) → List (String × J) → List (String × J)
  | base, [] => base
  | base, (k, v) :: rest =>
    jmergeFields (setJ base k (jmergeVal v (lookupJ base k))) rest

end

/-- Python `cur.update(over)`: one-level assignment of every entry. -/
def dictUpdate : List (String × J) → List (String × J) → List (String × J)
  | cur, [] => cur
  | cur, (k, v) :: rest => dictUpdate (setJ cur k v) rest

/-- The value assigned by `POST /config` for one top-level key: when the
posted value and the current value are both dicts, their one-level
`dict.update`, otherwise the posted value. -/
def ucmVal (v : J) (cv : Option J) : J :=
  match v, cv with
  | J.obj pvs, some (J.obj cvs) => J.obj (dictUpdate cvs pvs)
  | _, _ => v

/-- The merge loop of `POST /config` (`serve_unified.update_config`): for
each top-level posted entry, assign `ucmVal` of the posted value against
the evolving current configuration. -/
def updateConfigMerge : List (String × J) → List (String × J) →
    List (String × J)
  | cur, [] => cur
  | cur, (k, v) :: rest =>
    updateConfigMerge (setJ cur k (ucmVal v (lookupJ cur k))) rest

/-- `load_config()`: the defaults when no config file exists, otherwise
`merge_config(DEFAULT_CONFIG, raw)`. -/
def loadConfig (defaults : List (String × J))
    (stored : Option (List (String × J))) : List (String × J) :=
  match stored with
  | none => defaults
  | some raw => jmergeFields defaults raw

/-- `POST /config`: load the current configuration, merge the posted
object one level deep, save the full result as the new stored layer. -/
def postConfig (defaults : List (String × J))
    (stored : Option (List (String × J))) (p : List (String × J)) :
    List (String × J) :=
  updateConfigMerge (loadConfig defaults stored) p

/-- What `GET /config` returns after a `POST /config`. -/
def getAfterPost (defaults : List (String × J))
    (stored : Option (List (String × J))) (p : List (String × J)) :
    List (String × J) :=
  loadConfig defaults (some (postConfig defaults stored p))

/-- Path lookup in a configuration value. -/
def getPath : J → List String → Option J
  | v, [] => some v
  | J.obj fs, k :: rest =>
    (match lookupJ fs k with
      | some v2 => getPath v2 rest
      | none => none)
  | J.atom _, _ :: _ => none

/-- The keys of an object's field list, in insertion order. -/
def keysOf (fs : List (String × J)) : List String := fs.map Prod.fst

/-- Pairwise-distinct keys, as a Python dict guarantees. -/
def nodupKeys : List (String × J) → Bool
  | [] => true
  | (k, _) :: rest => !(rest.any fun kv => kv.1 = k) && nodupKeys rest

mutual

/-- Well-formedness of a JSON value parsed from a file or request body:
every object, recursively, has pairwise-distinct keys. -/
def wfJ : J → Bool
  | .atom _ => true
  | .obj fs => nodupKeys fs && wfL fs

/-- Well-formedness of every value of a field list. -/
def wfL : List (String × J) → Bool
  | [] => true
  | (_, v) :: rest => wfJ v && wfL rest

end

/-- Well-formedness of an object's field list. -/
def wfF (fs : List (String × J)) : Bool := nodupKeys fs && wfL fs

/-- The per-key effect of `merge_config` on lookups (`dv` the base's value
for the key, `xv` the override's). -/
def mergeLook (dv xv : Option J) : Option J :=
  match xv with
  | none => dv
  | some x =>
    match dv, x with
    | some (J.obj db), J.obj xb => some (J.obj (jmergeFields db xb))
    | _, _ => some x

/-- The `paddleocr` section of `DEFAULT_CONFIG`. -/
def paddleDefaults : List (String × J) :=
  [("lang", .atom "en"),
   ("ocr_version", .atom "PP-OCRv5"),
   ("model_type", .atom "mobile"),
   ("use_textline_orientation", .atom "true"),
   ("use_gpu", .atom "false"),
   ("auto_download", .atom "false"),
   ("debug", .atom "false"),
   ("debug_capture", .atom "false"),
   ("debug_capture_dir", .atom "models/debug_captures"),
   ("text_rec_score_thresh", .atom "0.3"),
   ("box_thresh", .atom "0.3"),
   ("unclip_ratio", .atom "1.6"),
   ("max_side", .atom "1800"),
   ("min_side_for_upscale", .atom "100")]

/-- `DEFAULT_CONFIG` of `rsta/config.py`.  Scalars and the empty
`preload_ocr` array are encoded as atoms carrying their literal text,
which the merge code never inspects. -/
def defaultConfig : List (String × J) :=
  [("hotkey", .atom "Ctrl+Alt+Q"),
   ("swap_hotkey", .atom "Ctrl+Alt+A"),
   ("close_overlay_hotkey", .atom "Escape"),
   ("ocr_lang", .atom "eng"),
   ("ocr_engine", .atom "paddleocr"),
   ("source_lang", .atom "en"),
   ("target_lang", .atom "zh"),
   ("translator", .atom "unified"),
   ("libretranslate", .obj
     [("url", .atom "http://localhost:5000/translate"),
      ("api_key", .atom ""),
      ("stream", .atom "true")]),
   ("model_dir", .atom "models"),
   ("paddleocr", .obj paddleDefaults),
   ("local_service", .obj
     [("host", .atom "127.0.0.1"),
      ("port", .atom "8092"),
      ("model_repo", .atom "tencent/HY-MT1.5-1.8B-GGUF"),
      ("quant", .atom "Q6_K")]),
   ("unified_service", .obj
     [("host", .atom "127.0.0.1"),
      ("port", .atom "8092"),
      ("timeout", .atom "30"),
      ("ocr_model_type", .atom "mobile"),
      ("preload_ocr", .atom "[]")]),
   ("startup", .obj
     [("auto_load_ocr", .atom "false"),
      ("auto_load_translator", .atom "false")]),
   ("ui", .obj [("overlay_max_width", .atom "300")]),
   ("llm", .obj
     [("api_key", .atom ""),
      ("base_url", .atom ""),
      ("model", .atom ""),
      ("max_tokens", .atom "2048"),
      ("temperature", .atom "0.7")])]

/-- A stored config layer carrying an unknown nested object at depth 3. -/
def c8raw : List (String × J) :=
  [("llm", .obj [("profiles", .obj
    [("a", .atom "0"), ("b", .atom "2")])])]

/-- A posted partial object touching `llm.profiles.a` only. -/
def c8post : List (String × J) :=
  [("llm", .obj [("profiles", .obj [("a", .atom "1")])])]

/-- A posted partial object with a top-level scalar and a depth-2 dict. -/
def c8wpost : List (String × J) :=
  [("target_lang", .atom "ja"),
   ("paddleocr", .obj [("max_side", .atom "1200")])]

/-! ## Theorems -/

/-- `insertByLen` inserts exactly the new element. -/
theorem mem_insertByLen (x z : String) :
    ∀ l : List String, z ∈ insertByLen x l ↔ z = x ∨ z ∈ l := by
  intro l
  induction l with
  | nil => simp [insertByLen]
  | cons y ys ih =>
    by_cases h : y.length < x.length
    · simp [insertByLen, h, ih]
      tauto
    · simp [insertByLen, h]

/-- `sortByLen` is a permutation at the level of membership. -/
theorem mem_sortByLen (z : String) :
    ∀ l : List String, z ∈ sortByLen l ↔ z ∈ l := by
  intro l
  induction l with
  | nil => simp [sortByLen]
  | cons x xs ih => simp [sortByLen, mem_insertByLen, ih]

/-- `sortByLen` maps nonempty lists to nonempty lists. -/
theorem sortByLen_ne_nil (l : List String) (h : l ≠ []) :
    sortByLen l ≠ [] := by
  intro hnil
  apply h
  cases l with
  | nil => rfl
  | cons x xs =>
    exfalso
    have hx : x ∈ sortByLen (x :: xs) := by
      rw [mem_sortByLen]
      exact List.mem_cons_self x xs
    rw [hnil] at hx
    exact List.not_mem_nil x hx

/-- The head of `sortByLen` has minimal length among the list elements. -/
theorem sortByLen_head_min :
    ∀ (l : List String) (x : String) (rest : List String),
      sortByLen l = x :: rest → ∀ y ∈ l, x.length ≤ y.length := by
  intro l
  induction l with
  | nil => intro x rest h; simp [sortByLen] at h
  | cons a as ih =>
    intro x rest h y hy
    rw [sortByLen] at h
    rcases hs : sortByLen as with _ | ⟨b, bs⟩
    · rw [hs] at h
      rw [insertByLen] at h
      have hax : a = x := (List.cons_eq_cons.mp h).1
      have has : as = [] := by
        cases hc : as with
        | nil => rfl
        | cons c cs => exact absurd hs (by rw [hc]; exact sortByLen_ne_nil _ (by simp))
      subst has
      rcases List.mem_cons.mp hy with hy2 | hy2
      · rw [← hax, hy2]
      · exact absurd hy2 (List.not_mem_nil y)
    · rw [hs] at h
      have hbmin : ∀ z ∈ as, b.length ≤ z.length := ih b bs hs
      by_cases hba : b.length < a.length
      · rw [insertByLen, if_pos hba] at h
        have hxb : b = x := (List.cons_eq_cons.mp h).1
        rcases List.mem_cons.mp hy with hy2 | hy2
        · rw [← hxb, hy2]
          exact Nat.le_of_lt hba
        · rw [← hxb]
          exact hbmin y hy2
      · rw [insertByLen, if_neg hba] at h
        have hxa : a = x := (List.cons_eq_cons.mp h).1
        rcases List.mem_cons.mp hy with hy2 | hy2
        · rw [← hxa, hy2]
        · rw [← hxa]
          exact le_trans (Nat.le_of_not_lt hba) (hbmin y hy2)

/-- `sortByLen` of a nonempty list starts with an element of minimal
length. -/
theorem sortByLen_exists_min (l : List String) (h : l ≠ []) :
    ∃ m ms, sortByLen l = m :: ms ∧ m ∈ l ∧
      ∀ g ∈ l, m.length ≤ g.length := by
  rcases hsort : sortByLen l with _ | ⟨m, ms⟩
  · exact absurd hsort (sortByLen_ne_nil l h)
  · refine ⟨m, ms, rfl, ?_, sortByLen_head_min l m ms hsort⟩
    rw [← mem_sortByLen, hsort]
    exact List.mem_cons_self m ms

/-- Claim C7: translation model file resolution is deterministic with a
shortest-filename tie-break — whenever more than one candidate (local
`.gguf` file, resp. remote repository `.gguf` file) contains the
quantization tag case-insensitively, the selected file is a match of
minimal filename length. -/
theorem c7_shortest_filename_tiebreak (candidates files : List String)
    (quant : String) :
    (2 ≤ (localMatches candidates quant).length →
      ∃ f, findLocalGguf candidates quant = some f ∧
        f ∈ localMatches candidates quant ∧
        ∀ g ∈ localMatches candidates quant, f.length ≤ g.length) ∧
    (2 ≤ (remoteMatches files quant).length →
      ∃ f, pickRemoteGguf files quant = some f ∧
        f ∈ remoteMatches files quant ∧
        ∀ g ∈ remoteMatches files quant, f.length ≤ g.length) := by
  constructor
  · intro h2
    have hlen : 2 ≤ candidates.length :=
      le_trans h2 (List.length_filter_le _ candidates)
    rcases candidates with _ | ⟨a, rest⟩
    · simp at hlen
    · rcases rest with _ | ⟨b, cs⟩
      · simp at hlen
      · have hne : localMatches (a :: b :: cs) quant ≠ [] := by
          intro hnil
          rw [hnil] at h2
          simp at h2
        obtain ⟨m, ms, hsort, hmem, hmin⟩ :=
          sortByLen_exists_min (localMatches (a :: b :: cs) quant) hne
        refine ⟨m, ?_, hmem, hmin⟩
        rw [findLocalGguf, hsort]
  · intro h2
    have hne : remoteMatches files quant ≠ [] := by
      intro hnil
      rw [hnil] at h2
      simp at h2
    obtain ⟨m, ms, hsort, hmem, hmin⟩ :=
      sortByLen_exists_min (remoteMatches files quant) hne
    refine ⟨m, ?_, hmem, hmin⟩
    rw [pickRemoteGguf, hsort]

/-- Witness for C7 on concrete local and remote listings. -/
theorem c7_shortest_filename_witness :
    (∃ f, findLocalGguf
        ["HY-MT1.5-1.8B.Q6_K.gguf", "HY.Q6_K.gguf", "HY.Q8_0.gguf"]
        "Q6_K" = some f ∧
      f ∈ localMatches
        ["HY-MT1.5-1.8B.Q6_K.gguf", "HY.Q6_K.gguf", "HY.Q8_0.gguf"] "Q6_K" ∧
      ∀ g ∈ localMatches
        ["HY-MT1.5-1.8B.Q6_K.gguf", "HY.Q6_K.gguf", "HY.Q8_0.gguf"] "Q6_K",
        f.length ≤ g.length) ∧
    (∃ f, pickRemoteGguf ["sub/HY.Q6_K.gguf", "sub/HY-big.Q6_K.GGUF", "README.md"]
        "Q6_K" = some f ∧
      f ∈ remoteMatches ["sub/HY.Q6_K.gguf", "sub/HY-big.Q6_K.GGUF", "README.md"]
        "Q6_K" ∧
      ∀ g ∈ remoteMatches ["sub/HY.Q6_K.gguf", "sub/HY-big.Q6_K.GGUF", "README.md"]
        "Q6_K", f.length ≤ g.length) := by
  have h := c7_shortest_filename_tiebreak
    ["HY-MT1.5-1.8B.Q6_K.gguf", "HY.Q6_K.gguf", "HY.Q8_0.gguf"]
    ["sub/HY.Q6_K.gguf", "sub/HY-big.Q6_K.GGUF", "README.md"] "Q6_K"
  exact ⟨h.1 (by decide), h.2 (by decide)⟩

/-- Claim C9 counterexample: log ids are not monotonic across the whole
process lifetime — `POST /logs/clear` resets `_last_id` to 0, so an entry
added after a clear reuses id 1, and a consumer polling
`get_all(since_id=1)` misses it. -/
theorem c9_log_ids_counterexample :
    ((logBufferInit.add "INFO" "a").clearAll.add "INFO" "b").lastId = 1 ∧
    (logBufferInit.add "INFO" "a").lastId = 1 ∧
    ¬ ((logBufferInit.add "INFO" "a").lastId <
        ((logBufferInit.add "INFO" "a").clearAll.add "INFO" "b").lastId) ∧
    ((logBufferInit.add "INFO" "a").clearAll.add "INFO" "b").getAll 1 = [] := by
  refine ⟨rfl, rfl, by decide, rfl⟩

/-- Claim C9 (amended): in the absence of `clear`, log ids are strictly
monotonic — each `add` assigns id `_last_id + 1`, strictly above every id
assigned earlier (all of which are bounded by `_last_id`, which only grows
under `add`), the bound is preserved, and a consumer polling past its
high-water mark sees only genuinely newer entries.  `clear` resets the
counter, so monotonicity holds only between clears. -/
theorem c9_log_ids_amended (b : LogBuffer) (adds : List (String × String))
    (lm : String × String) :
    ((b.add lm.1 lm.2).lastId = b.lastId + 1) ∧
    (b.IdsBounded → ∀ e ∈ b.buffer, e.id < (b.add lm.1 lm.2).lastId) ∧
    (b.IdsBounded → (b.add lm.1 lm.2).IdsBounded) ∧
    (b.lastId ≤ (b.addAll adds).lastId) ∧
    (b.IdsBounded → ∀ x ∈ (b.add lm.1 lm.2).getAll b.lastId,
      x = ⟨b.lastId + 1, lm.1, lm.2⟩) := by
  refine ⟨rfl, ?_, ?_, ?_, ?_⟩
  · intro hb e he
    exact Nat.lt_succ_of_le (hb e he)
  · intro hb e he
    simp only [LogBuffer.add] at he ⊢
    have hmem : e ∈ b.buffer ++ [(⟨b.lastId + 1, lm.1, lm.2⟩ : LogEntry)] := by
      by_cases hlen : b.maxSize <
          (b.buffer ++ [(⟨b.lastId + 1, lm.1, lm.2⟩ : LogEntry)]).length
      · rw [if_pos hlen] at he
        exact List.mem_of_mem_drop he
      · rw [if_neg hlen] at he
        exact he
    rcases List.mem_append.mp hmem with hmem | hmem
    · exact le_trans (hb e hmem) (Nat.le_succ _)
    · rcases List.mem_singleton.mp hmem with rfl
      exact Nat.le_refl _
  · have key : ∀ (adds2 : List (String × String)) (c : LogBuffer),
        (c.addAll adds2).lastId = c.lastId + adds2.length := by
      intro adds2
      induction adds2 with
      | nil => intro c; rfl
      | cons hd tl ih =>
        intro c
        show ((c.add hd.1 hd.2).addAll tl).lastId = _
        rw [ih]
        simp [LogBuffer.add]
        omega
    rw [key]
    omega
  · intro hb x hx
    simp only [LogBuffer.getAll, List.mem_filter] at hx
    obtain ⟨hxmem, hxid⟩ := hx
    simp only [LogBuffer.add] at hxmem
    have hmem : x ∈ b.buffer ++ [(⟨b.lastId + 1, lm.1, lm.2⟩ : LogEntry)] := by
      by_cases hlen : b.maxSize <
          (b.buffer ++ [(⟨b.lastId + 1, lm.1, lm.2⟩ : LogEntry)]).length
      · rw [if_pos hlen] at hxmem
        exact List.mem_of_mem_drop hxmem
      · rw [if_neg hlen] at hxmem
        exact hxmem
    rcases List.mem_append.mp hmem with hmem | hmem
    · exfalso
      have := hb x hmem
      simp at hxid
      omega
    · exact List.mem_singleton.mp hmem

/-- Witness for C9 (amended): a concrete add chain assigns 1,2,3 and the
consumer sees exactly the new entry past its high-water mark. -/
theorem c9_log_ids_witness :
    ((logBufferInit.add "INFO" "x").add "INFO" "y").lastId =
        (logBufferInit.add "INFO" "x").lastId + 1 ∧
    ∀ x ∈ (((logBufferInit.add "INFO" "x").add "INFO" "y").getAll
        (logBufferInit.add "INFO" "x").lastId),
      x = ⟨(logBufferInit.add "INFO" "x").lastId + 1, "INFO", "y"⟩ := by
  have h := c9_log_ids_amended (logBufferInit.add "INFO" "x") []
    ("INFO", "y")
  have hb : (logBufferInit.add "INFO" "x").IdsBounded := by
    intro e he
    have he2 : e = ⟨1, "INFO", "x"⟩ := by
      simpa [logBufferInit, LogBuffer.add] using he
    rw [he2]
    decide
  exact ⟨h.1, h.2.2.2.2 hb⟩

/-- Claim C2: when no RapidOCR backend can be constructed, PaddleOCR is
importable but its model weight files are absent and `auto_download` is
disabled, `load_ocr_engine` (on a cache miss) fails with an error whose
message includes the expected model storage path, attempts no PaddleOCR
construction, and leaves the cache unchanged. -/
theorem c2_model_missing_fails_before_construction
    (cache : List String) (env : OcrEnv) (modelType lang : String)
    (hmiss : cacheKey modelType lang ∉ cache)
    (hov : env.rapidOpenvino = false) (hox : env.rapidOnnx = false)
    (hpi : env.paddleImportable = true)
    (hm : env.hasModels = false) (had : env.autoDownload = false) :
    (loadOcrEngine cache env modelType lang).result =
        .error (modelMissingMsg env.paddlexHome) ∧
      (∃ pre post, modelMissingMsg env.paddlexHome =
        pre ++ (env.paddlexHome ++ "/official_models") ++ post) ∧
      (loadOcrEngine cache env modelType lang).paddleConstructAttempts = 0 ∧
      (loadOcrEngine cache env modelType lang).cacheAfter = cache := by
  refine ⟨?_, ?_, ?_, ?_⟩
  · simp [loadOcrEngine, hmiss, hov, hox, hpi, hm, had]
  · exact ⟨"\n" ++ eq60 ++ "\n" ++ "OCR 模型未找到！\n" ++ eq60 ++ "\n\n" ++
      "模型目录: ",
      "\n\n" ++ "请在设置页面点击下载按钮下载 OCR 模型\n" ++ eq60 ++ "\n",
      by simp only [modelMissingMsg, String.append_assoc]⟩
  · simp [loadOcrEngine, hmiss, hov, hox, hpi, hm, had]
  · simp [loadOcrEngine, hmiss, hov, hox, hpi, hm, had]

/-- Witness for C2 at a concrete environment. -/
theorem c2_model_missing_witness :
    (loadOcrEngine [] ⟨false, false, true, false, false, "/home/u/.paddlex",
        .ok ()⟩ "mobile" "en").result =
      .error (modelMissingMsg "/home/u/.paddlex") ∧
    (loadOcrEngine [] ⟨false, false, true, false, false, "/home/u/.paddlex",
        .ok ()⟩ "mobile" "en").paddleConstructAttempts = 0 := by
  have h := c2_model_missing_fails_before_construction []
    ⟨false, false, true, false, false, "/home/u/.paddlex", .ok ()⟩
    "mobile" "en" (by decide) rfl rfl rfl rfl rfl
  exact ⟨h.1, h.2.2.1⟩

/-- Claim C3: `ensure_translate_model` is idempotent — once the slot is
filled (in particular after any call that returned `true`), every call
returns `true` by the fast path, performs zero `load_translate_model`
invocations, and leaves the slot fields (`model`, `repo`, `file`)
unchanged.  The second conjunct records that a `true` return always leaves
the slot filled. -/
theorem c3_ensure_translate_model_idempotent
    (s : TransSlot) (r r2 : LoadTranslateResult) :
    (∀ m, s.model = some m →
      ensureTranslateModel s r = (true, s, 0)) ∧
    ((ensureTranslateModel s r).1 = true →
      ensureTranslateModel ((ensureTranslateModel s r).2.1) r2 =
        (true, (ensureTranslateModel s r).2.1, 0)) := by
  constructor
  · intro m hm
    simp [ensureTranslateModel, hm]
  · intro htrue
    cases hs : s.model with
    | some m => simp [ensureTranslateModel, hs]
    | none =>
      cases hr : r.model with
      | some m' => simp [ensureTranslateModel, hs, hr]
      | none => simp [ensureTranslateModel, hs, hr] at htrue

/-- Witness for C3: a filled slot is returned unchanged with no load call,
and a fresh successful load is idempotent on the second call. -/
theorem c3_ensure_translate_model_witness :
    ensureTranslateModel ⟨some 7, some "tencent/HY-MT1.5-1.8B-GGUF",
        some "HY-MT1.5-1.8B.Q6_K.gguf"⟩ ⟨none, none, none⟩ =
      (true, ⟨some 7, some "tencent/HY-MT1.5-1.8B-GGUF",
        some "HY-MT1.5-1.8B.Q6_K.gguf"⟩, 0) :=
  (c3_ensure_translate_model_idempotent
    ⟨some 7, some "tencent/HY-MT1.5-1.8B-GGUF", some "HY-MT1.5-1.8B.Q6_K.gguf"⟩
    ⟨none, none, none⟩ ⟨none, none, none⟩).1 7 rfl

/-- Claim C5: the `POST /translate` handler returns 400 when `q` and `text`
both strip to empty (without touching the model slot), 503 while the model
is flagged loading or when `ensure_translate_model` returns false, 504 on
inference timeout, and otherwise the stripped completion text. -/
theorem c5_translate_endpoint_cases
    (q t : Option String) (loading ensureOk : Bool) (secs : Nat)
    (infer : InferOutcome) :
    (pyStrip (pyOrStr q t) = "" →
      translateEndpoint q t loading ensureOk secs infer =
        ⟨.error (400, "Empty text"), false, false⟩) ∧
    (pyStrip (pyOrStr q t) ≠ "" → loading = true →
      (translateEndpoint q t loading ensureOk secs infer).response =
        .error (503, "翻译模型正在加载中，请稍候...")) ∧
    (pyStrip (pyOrStr q t) ≠ "" → loading = false → ensureOk = false →
      (translateEndpoint q t loading ensureOk secs infer).response =
        .error (503, "翻译模型未找到，请先在设置中下载翻译模型")) ∧
    (pyStrip (pyOrStr q t) ≠ "" → loading = false → ensureOk = true →
      infer = .timeout →
      (translateEndpoint q t loading ensureOk secs infer).response =
        .error (504, "Translation timeout (" ++ toString secs ++ "s)")) ∧
    (∀ completion, pyStrip (pyOrStr q t) ≠ "" → loading = false →
      ensureOk = true → infer = .ok completion →
      (translateEndpoint q t loading ensureOk secs infer).response =
        .ok (pyStrip completion)) := by
  refine ⟨?_, ?_, ?_, ?_, ?_⟩
  · intro h
    simp [translateEndpoint, h]
  · intro h hl
    simp [translateEndpoint, h, hl]
  · intro h hl he
    simp [translateEndpoint, h, hl, he]
  · intro h hl he hi
    simp [translateEndpoint, h, hl, he, hi]
  · intro completion h hl he hi
    simp [translateEndpoint, h, hl, he, hi]

/-- Witness for C5: concrete instances of the empty-text, timeout and
success branches. -/
theorem c5_translate_endpoint_witness :
    translateEndpoint (some "  ") (some "") false true 60 (.ok "hi") =
      ⟨.error (400, "Empty text"), false, false⟩ ∧
    (translateEndpoint (some "hello") none false true 60 .timeout).response =
      .error (504, "Translation timeout (60s)") ∧
    (translateEndpoint (some "hello") none false true 60
        (.ok " 你好 ")).response = .ok "你好" := by
  refine ⟨?_, ?_, ?_⟩
  · exact (c5_translate_endpoint_cases (some "  ") (some "") false true 60
      (.ok "hi")).1 (by decide)
  · exact (c5_translate_endpoint_cases (some "hello") none false true 60
      .timeout).2.2.2.1 (by decide) rfl rfl rfl
  · have h := (c5_translate_endpoint_cases (some "hello") none false true 60
      (.ok " 你好 ")).2.2.2.2 " 你好 " (by decide) rfl rfl rfl
    rw [h]
    rfl

/-- Claim C6 counterexample: a `POST /ocr` request whose image is not valid
base64 does not always get status 400 — the handler checks
`STATE.ocr_loading` first, so while the OCR model is loading the same
invalid request gets 503.  (The engine cache is still never reached.) -/
theorem c6_invalid_base64_counterexample :
    (ocrEndpoint "mobile" true none (.error "unreached")).status = 503 ∧
    (ocrEndpoint "mobile" true none (.error "unreached")).status ≠ 400 ∧
    (ocrEndpoint "mobile" true none (.error "unreached")).engineCacheReached
      = false := by
  refine ⟨rfl, by decide, rfl⟩

/-- Claim C6 (amended): whenever base64 decoding fails the engine cache is
never reached, and provided the OCR loading flag is clear the response
status is 400. -/
theorem c6_invalid_base64_amended (modelType : String) (loading : Bool)
    (ocrResult : Except String String) :
    (ocrEndpoint modelType loading none ocrResult).engineCacheReached
        = false ∧
    (loading = false →
      (ocrEndpoint modelType loading none ocrResult).response =
        .error (400, "Invalid base64 image")) := by
  constructor
  · cases loading <;> rfl
  · intro h
    subst h
    rfl

/-- Witness for C6 (amended) at a concrete request. -/
theorem c6_invalid_base64_witness :
    (ocrEndpoint "mobile" false none (.ok "unused")).response =
        .error (400, "Invalid base64 image") ∧
    (ocrEndpoint "mobile" false none (.ok "unused")).engineCacheReached
        = false :=
  ⟨(c6_invalid_base64_amended "mobile" false (.ok "unused")).2 rfl,
   (c6_invalid_base64_amended "mobile" false (.ok "unused")).1⟩

/-- Claim C10: when a decoded image's width or height is still below 32
pixels after the upscale step, `do_ocr` returns the empty string without
invoking the engine's inference call — though the engine was already
loaded — and `POST /ocr` consequently answers 200 with empty text. -/
theorem c10_small_image_empty_ocr (minSide w h : Nat) (inferText : String)
    (modelType : String) (bytes : List Nat)
    (hsmall : (upscaledDims w h minSide).1 < 32 ∨
      (upscaledDims w h minSide).2 < 32) :
    doOcr (.ok ()) minSide w h inferText =
        ⟨.ok "", true, false⟩ ∧
    (ocrEndpoint modelType false (some bytes)
        (doOcr (.ok ()) minSide w h inferText).result).response =
      .ok ("", modelType) ∧
    (ocrEndpoint modelType false (some bytes)
        (doOcr (.ok ()) minSide w h inferText).result).status = 200 := by
  have hdo : doOcr (.ok ()) minSide w h inferText = ⟨.ok "", true, false⟩ := by
    rw [doOcr]
    simp only [if_pos hsmall]
  refine ⟨hdo, ?_, ?_⟩
  · rw [hdo]
    rfl
  · rw [hdo]
    rfl

/-- Witness for C10: a 5×100 image with `min_side_for_upscale = 10`
upscales to 10×200, whose width is still below 32. -/
theorem c10_small_image_witness :
    doOcr (.ok ()) 10 5 100 "ignored" =
        ⟨.ok "", true, false⟩ ∧
    (ocrEndpoint "mobile" false (some [137, 80])
        (doOcr (.ok ()) 10 5 100 "ignored").result).response =
      .ok ("", "mobile") := by
  have h := c10_small_image_empty_ocr 10 5 100 "ignored" "mobile" [137, 80]
    (by decide)
  exact ⟨h.1, h.2.1⟩

/-- Claim C4 counterexample: not every load attempt sets `loading=true`
before starting — the request-triggered load performed by
`POST /ocr/preload` constructs and caches an engine while `ocr_loading`
stays false for the whole attempt (the handler never writes the flag), so
`GET /loading_status` observed during that attempt reports
`loading=false`. -/
theorem c4_loading_flag_counterexample :
    initSvcState.ocrLoading = false ∧
    (loadingStatus initSvcState).ocr.loading = false ∧
    (preloadOcrEndpoint initSvcState (.ok "rapidocr") "mobile" "en").1 =
      .ok ("loaded", "mobile_en") ∧
    (preloadOcrEndpoint initSvcState (.ok "rapidocr") "mobile" "en").2.ocrEngines
      = ["mobile_en"] ∧
    (preloadOcrEndpoint initSvcState (.ok "rapidocr") "mobile" "en").2.ocrLoading
      = false := by
  refine ⟨rfl, rfl, rfl, rfl, rfl⟩

/-- Claim C4 (amended): for the background preloader's primary OCR load
attempt from a fresh state, `GET /loading_status` reports
`loading=true, ready=false` before completion; `loading=false, ready=true`
after success; `loading=false, ready=false, error≠null` after failure; and
the `finally:` block clears `loading` on every exit path.  (Only this
background attempt and the background translation attempt set the flag;
request-triggered loads do not.) -/
theorem c4_loading_status_amended (s0 : SvcState) (k msg : String)
    (hengines : s0.ocrEngines = []) (hready : s0.ocrReady = false)
    (herr : s0.loadingError = none) :
    (loadingStatus (bgOcrStart s0)).ocr.loading = true ∧
    (loadingStatus (bgOcrStart s0)).ocr.ready = false ∧
    (loadingStatus (bgOcrPhase (.success k) s0)).ocr.loading = false ∧
    (loadingStatus (bgOcrPhase (.success k) s0)).ocr.ready = true ∧
    (loadingStatus (bgOcrPhase (.failure msg) s0)).ocr.loading = false ∧
    (loadingStatus (bgOcrPhase (.failure msg) s0)).ocr.ready = false ∧
    (loadingStatus (bgOcrPhase (.failure msg) s0)).error =
      some ("OCR 加载失败: " ++ msg) ∧
    (∀ out, (bgOcrPhase out s0).ocrLoading = false) := by
  refine ⟨?_, ?_, ?_, ?_, ?_, ?_, ?_, ?_⟩
  · rfl
  · simp [loadingStatus, bgOcrStart, hengines, hready]
  · rfl
  · simp [loadingStatus, bgOcrPhase, bgOcrEnd, bgOcrFinish, bgOcrStart]
  · rfl
  · simp [loadingStatus, bgOcrPhase, bgOcrEnd, bgOcrFinish, bgOcrStart,
      hengines, hready]
  · simp [loadingStatus, bgOcrPhase, bgOcrEnd, bgOcrFinish, bgOcrStart, herr]
  · intro out
    cases out <;> rfl

/-- The invariant holds initially. -/
theorem regInv_init (n : Nat) (keys : Fin n → String) :
    RegInv n keys (regInit n) := by
  refine ⟨?_, ?_, ?_, ?_, ?_, ?_, ?_⟩ <;> intro i h <;> simp [regInit] at h ⊢

/-- The invariant is preserved by every step of every thread. -/
theorem regInv_step {n : Nat} {keys : Fin n → String} {s s2 : RegState n}
    (hinv : RegInv n keys s) (hstep : RegStep n keys s s2) :
    RegInv n keys s2 := by
  cases hstep with
  | fastHit i _ hpc hc =>
    refine ⟨?_, ?_, hinv.cachedCount, ?_, ?_, ?_, hinv.cacheRequested⟩ <;>
      dsimp only
    · intro j hj
      by_cases hji : j = i
      · subst hji
        rw [Function.update_same] at hj
        rcases hj with hj | hj <;> exact absurd hj (by simp)
      · rw [Function.update_noteq hji] at hj
        exact hinv.lockHolder j hj
    · intro j hj
      by_cases hji : j = i
      · subst hji
        rw [Function.update_same] at hj
        exact absurd hj (by simp)
      · rw [Function.update_noteq hji] at hj
        exact hinv.notCachedConstr j hj
    · intro j hj
      by_cases hji : j = i
      · subst hji
        rw [Function.update_same] at hj
        exact absurd hj (by simp)
      · rw [Function.update_noteq hji] at hj
        exact hinv.constrCount j hj
    · intro k hck hcons
      refine hinv.idleCount k hck ?_
      intro j hj
      have hji : j ≠ i := by
        intro hji
        subst hji
        rw [hpc] at hj
        exact absurd hj (by simp)
      refine hcons j ?_
      rw [Function.update_noteq hji]
      exact hj
    · intro j hj
      by_cases hji : j = i
      · subst hji
        exact hc
      · rw [Function.update_noteq hji] at hj
        exact hinv.doneCached j hj
  | fastMiss i _ hpc hc =>
    refine ⟨?_, ?_, hinv.cachedCount, ?_, ?_, ?_, hinv.cacheRequested⟩ <;>
      dsimp only
    · intro j hj
      by_cases hji : j = i
      · subst hji
        rw [Function.update_same] at hj
        rcases hj with hj | hj <;> exact absurd hj (by simp)
      · rw [Function.update_noteq hji] at hj
        exact hinv.lockHolder j hj
    · intro j hj
      by_cases hji : j = i
      · subst hji
        rw [Function.update_same] at hj
        exact absurd hj (by simp)
      · rw [Function.update_noteq hji] at hj
        exact hinv.notCachedConstr j hj
    · intro j hj
      by_cases hji : j = i
      · subst hji
        rw [Function.update_same] at hj
        exact absurd hj (by simp)
      · rw [Function.update_noteq hji] at hj
        exact hinv.constrCount j hj
    · intro k hck hcons
      refine hinv.idleCount k hck ?_
      intro j hj
      have hji : j ≠ i := by
        intro hji
        subst hji
        rw [hpc] at hj
        exact absurd hj (by simp)
      refine hcons j ?_
      rw [Function.update_noteq hji]
      exact hj
    · intro j hj
      by_cases hji : j = i
      · subst hji
        rw [Function.update_same] at hj
        exact absurd hj (by simp)
      · rw [Function.update_noteq hji] at hj
        exact hinv.doneCached j hj
  | acquire i _ hpc hl =>
    refine ⟨?_, ?_, hinv.cachedCount, ?_, ?_, ?_, hinv.cacheRequested⟩ <;>
      dsimp only
    · intro j hj
      by_cases hji : j = i
      · subst hji
        rfl
      · rw [Function.update_noteq hji] at hj
        have := hinv.lockHolder j hj
        rw [hl] at this
        exact absurd this (by simp)
    · intro j hj
      by_cases hji : j = i
      · subst hji
        rw [Function.update_same] at hj
        exact absurd hj (by simp)
      · rw [Function.update_noteq hji] at hj
        exact hinv.notCachedConstr j hj
    · intro j hj
      by_cases hji : j = i
      · subst hji
        rw [Function.update_same] at hj
        exact absurd hj (by simp)
      · rw [Function.update_noteq hji] at hj
        exact hinv.constrCount j hj
    · intro k hck hcons
      refine hinv.idleCount k hck ?_
      intro j hj
      have hji : j ≠ i := by
        intro hji
        subst hji
        rw [hpc] at hj
        exact absurd hj (by simp)
      refine hcons j ?_
      rw [Function.update_noteq hji]
      exact hj
    · intro j hj
      by_cases hji : j = i
      · subst hji
        rw [Function.update_same] at hj
        exact absurd hj (by simp)
      · rw [Function.update_noteq hji] at hj
        exact hinv.doneCached j hj
  | recheckHit i _ hpc hc =>
    have hlock : s.lock = some i := hinv.lockHolder i (Or.inl hpc)
    refine ⟨?_, ?_, hinv.cachedCount, ?_, ?_, ?_, hinv.cacheRequested⟩ <;>
      dsimp only
    · intro j hj
      by_cases hji : j = i
      · subst hji
        rw [Function.update_same] at hj
        rcases hj with hj | hj <;> exact absurd hj (by simp)
      · rw [Function.update_noteq hji] at hj
        have := hinv.lockHolder j hj
        rw [hlock] at this
        exact absurd (Option.some.inj this) (Ne.symm hji)
    · intro j hj
      by_cases hji : j = i
      · subst hji
        rw [Function.update_same] at hj
        exact absurd hj (by simp)
      · rw [Function.update_noteq hji] at hj
        have := hinv.lockHolder j (Or.inr hj)
        rw [hlock] at this
        exact absurd (Option.some.inj this) (Ne.symm hji)
    · intro j hj
      by_cases hji : j = i
      · subst hji
        rw [Function.update_same] at hj
        exact absurd hj (by simp)
      · rw [Function.update_noteq hji] at hj
        exact hinv.constrCount j hj
    · intro k hck hcons
      refine hinv.idleCount k hck ?_
      intro j hj
      have hji : j ≠ i := by
        intro hji
        subst hji
        rw [hpc] at hj
        exact absurd hj (by simp)
      refine hcons j ?_
      rw [Function.update_noteq hji]
      exact hj
    · intro j hj
      by_cases hji : j = i
      · subst hji
        exact hc
      · rw [Function.update_noteq hji] at hj
        exact hinv.doneCached j hj
  | construct i _ hpc hc =>
    have hlock : s.lock = some i := hinv.lockHolder i (Or.inl hpc)
    have hnocons : ∀ j, s.pc j = .constructed → False := by
      intro j hj
      have := hinv.lockHolder j (Or.inr hj)
      rw [hlock] at this
      have hji := Option.some.inj this
      subst hji
      rw [hpc] at hj
      exact absurd hj (by simp)
    refine ⟨?_, ?_, ?_, ?_, ?_, ?_, hinv.cacheRequested⟩ <;>
      dsimp only
    · intro j hj
      by_cases hji : j = i
      · subst hji
        exact hlock
      · rw [Function.update_noteq hji] at hj
        exact hinv.lockHolder j hj
    · intro j hj
      by_cases hji : j = i
      · subst hji
        exact hc
      · rw [Function.update_noteq hji] at hj
        exact absurd hj (fun hj2 => hnocons j hj2)
    · intro k hk
      have hne : k ≠ keys i := by
        intro hkk
        rw [hkk] at hk
        rw [hk] at hc
        exact absurd hc (by simp)
      show (if k = keys i then s.counter k + 1 else s.counter k) = 1
      rw [if_neg hne]
      exact hinv.cachedCount k hk
    · intro j hj
      by_cases hji : j = i
      · subst hji
        show (if keys j = keys j then s.counter (keys j) + 1
          else s.counter (keys j)) = 1
        rw [if_pos rfl]
        have hzero : s.counter (keys j) = 0 := by
          refine hinv.idleCount (keys j) hc ?_
          intro j2 hj2
          exact absurd hj2 (fun hj3 => hnocons j2 hj3)
        rw [hzero]
      · rw [Function.update_noteq hji] at hj
        exact absurd hj (fun hj2 => hnocons j hj2)
    · intro k hck hcons
      have hne : k ≠ keys i := by
        intro hkk
        refine hcons i ?_ hkk.symm
        rw [Function.update_same]
      show (if k = keys i then s.counter k + 1 else s.counter k) = 0
      rw [if_neg hne]
      refine hinv.idleCount k hck ?_
      intro j hj
      exact absurd hj (fun hj2 => hnocons j hj2)
    · intro j hj
      by_cases hji : j = i
      · subst hji
        rw [Function.update_same] at hj
        exact absurd hj (by simp)
      · rw [Function.update_noteq hji] at hj
        exact hinv.doneCached j hj
  | insert i _ hpc =>
    have hlock : s.lock = some i := hinv.lockHolder i (Or.inr hpc)
    have honly : ∀ j, j ≠ i → s.pc j = .locked ∨ s.pc j = .constructed →
        False := by
      intro j hji hj
      have := hinv.lockHolder j hj
      rw [hlock] at this
      exact hji (Option.some.inj this).symm
    refine ⟨?_, ?_, ?_, ?_, ?_, ?_, ?_⟩ <;>
      dsimp only
    · intro j hj
      by_cases hji : j = i
      · subst hji
        rw [Function.update_same] at hj
        rcases hj with hj | hj <;> exact absurd hj (by simp)
      · rw [Function.update_noteq hji] at hj
        exact absurd hj (honly j hji)
    · intro j hj
      by_cases hji : j = i
      · subst hji
        rw [Function.update_same] at hj
        exact absurd hj (by simp)
      · rw [Function.update_noteq hji] at hj
        exact absurd (Or.inr hj) (honly j hji)
    · intro k hk
      show s.counter k = 1
      by_cases hkk : k = keys i
      · rw [hkk]
        exact hinv.constrCount i hpc
      · have hk2 : s.cache k = true := by
          have : (if k = keys i then true else s.cache k) = true := hk
          rw [if_neg hkk] at this
          exact this
        exact hinv.cachedCount k hk2
    · intro j hj
      by_cases hji : j = i
      · subst hji
        rw [Function.update_same] at hj
        exact absurd hj (by simp)
      · rw [Function.update_noteq hji] at hj
        exact absurd (Or.inr hj) (honly j hji)
    · intro k hck hcons
      have hkk : k ≠ keys i := by
        intro hkk
        have : (if k = keys i then true else s.cache k) = false := hck
        rw [if_pos hkk] at this
        exact absurd this (by simp)
      have hck2 : s.cache k = false := by
        have : (if k = keys i then true else s.cache k) = false := hck
        rw [if_neg hkk] at this
        exact this
      refine hinv.idleCount k hck2 ?_
      intro j hj
      by_cases hji : j = i
      · subst hji
        exact fun hkeq => hkk (hkeq ▸ rfl)
      · exact absurd (Or.inr hj) (honly j hji)
    · intro j hj
      by_cases hji : j = i
      · subst hji
        show (if keys j = keys j then true else s.cache (keys j)) = true
        rw [if_pos rfl]
      · rw [Function.update_noteq hji] at hj
        have := hinv.doneCached j hj
        show (if keys j = keys i then true else s.cache (keys j)) = true
        by_cases hkk : keys j = keys i
        · rw [if_pos hkk]
        · rw [if_neg hkk]
          exact this
    · intro k hk
      by_cases hkk : k = keys i
      · exact ⟨i, hkk.symm⟩
      · have hk2 : s.cache k = true := by
          have : (if k = keys i then true else s.cache k) = true := hk
          rw [if_neg hkk] at this
          exact this
        exact hinv.cacheRequested k hk2

/-- Every reachable state satisfies the invariant. -/
theorem regInv_reachable {n : Nat} {keys : Fin n → String} {s : RegState n}
    (h : RegReachable n keys s) : RegInv n keys s := by
  induction h with
  | refl => exact regInv_init n keys
  | tail _ hstep ih => exact regInv_step ih hstep

/-- Claim C1: under arbitrary interleaving of N concurrent
`load_ocr_engine` callers, the construction side-effect counter never
exceeds 1 for any key, keys never requested are never constructed, and
once every thread has returned the counter is exactly 1 for every
requested key — the fast path returns cached entries without the lock and
the slow path re-checks under the single registry-wide lock before
constructing. -/
theorem c1_engine_construction_once (n : Nat) (keys : Fin n → String)
    (s : RegState n) (h : RegReachable n keys s) :
    (∀ k, s.counter k ≤ 1) ∧
    (∀ k, (∀ i, keys i ≠ k) → s.counter k = 0) ∧
    ((∀ i, s.pc i = .done) → ∀ i, s.counter (keys i) = 1) := by
  have hinv := regInv_reachable h
  refine ⟨?_, ?_, ?_⟩
  · intro k
    by_cases hc : s.cache k = true
    · rw [hinv.cachedCount k hc]
    · have hc2 : s.cache k = false := by
        cases hcc : s.cache k
        · rfl
        · exact absurd hcc hc
      by_cases hex : ∃ i, s.pc i = .constructed ∧ keys i = k
      · obtain ⟨i, hpc, hk⟩ := hex
        rw [← hk, hinv.constrCount i hpc]
      · have : s.counter k = 0 := by
          refine hinv.idleCount k hc2 ?_
          intro i hpc hk
          exact hex ⟨i, hpc, hk⟩
        rw [this]
        exact Nat.zero_le 1
  · intro k hk
    by_cases hc : s.cache k = true
    · obtain ⟨i, hi⟩ := hinv.cacheRequested k hc
      exact absurd hi (hk i)
    · have hc2 : s.cache k = false := by
        cases hcc : s.cache k
        · rfl
        · exact absurd hcc hc
      refine hinv.idleCount k hc2 ?_
      intro i _
      exact hk i
  · intro hall i
    exact hinv.cachedCount (keys i) (hinv.doneCached i (hall i))

/-- Witness for C1: a concrete interleaving of two threads both requesting
`mobile_en` — thread 0 takes the full slow path, thread 1 fast-path hits —
ends with both done and exactly one construction of `mobile_en`. -/
theorem c1_engine_construction_witness :
    ∃ s : RegState 2, RegReachable 2 (fun _ => "mobile_en") s ∧
      (∀ i : Fin 2, s.pc i = .done) ∧
      s.counter "mobile_en" = 1 ∧ s.counter "server_zh" = 0 := by
  have h1 : RegStep 2 (fun _ => "mobile_en") regW0 regW1 :=
    RegStep.fastMiss 0 regW0 rfl rfl
  have h2 : RegStep 2 (fun _ => "mobile_en") regW1 regW2 :=
    RegStep.acquire 0 regW1 rfl rfl
  have h3 : RegStep 2 (fun _ => "mobile_en") regW2 regW3 :=
    RegStep.construct 0 regW2 rfl rfl
  have h4 : RegStep 2 (fun _ => "mobile_en") regW3 regW4 :=
    RegStep.insert 0 regW3 rfl
  have h5 : RegStep 2 (fun _ => "mobile_en") regW4 regW5 :=
    RegStep.fastHit 1 regW4 rfl rfl
  have hreach : RegReachable 2 (fun _ => "mobile_en") regW5 :=
    ((((Relation.ReflTransGen.refl.tail h1).tail h2).tail h3).tail h4).tail h5
  have hdone : ∀ i : Fin 2, regW5.pc i = .done := by decide
  have hmain := c1_engine_construction_once 2 (fun _ => "mobile_en")
    regW5 hreach
  refine ⟨regW5, hreach, hdone, hmain.2.2 hdone 0, ?_⟩
  refine hmain.2.1 "server_zh" ?_
  intro i
  show ("mobile_en" : String) ≠ "server_zh"
  decide

/-- `setJ` then `lookupJ` at the assigned key. -/
theorem lookup_setJ_self (l : List (String × J)) (k : String) (v : J) :
    lookupJ (setJ l k v) k = some v := by
  induction l with
  | nil => simp [setJ, lookupJ]
  | cons kv rest ih =>
    obtain ⟨k2, v2⟩ := kv
    by_cases h : k2 = k
    · simp [setJ, h, lookupJ]
    · simp [setJ, h, lookupJ, ih]

/-- `setJ` leaves other keys' lookups unchanged. -/
theorem lookup_setJ_ne (l : List (String × J)) (k k2 : String) (v : J)
    (h : k2 ≠ k) : lookupJ (setJ l k v) k2 = lookupJ l k2 := by
  induction l with
  | nil => simp [setJ, lookupJ, Ne.symm h]
  | cons kv rest ih =>
    obtain ⟨k3, v3⟩ := kv
    by_cases hk : k3 = k
    · subst hk
      simp [setJ, lookupJ, Ne.symm h]
    · simp [setJ, hk, lookupJ, ih]

/-- A lookup misses exactly when the key is absent. -/
theorem lookup_eq_none_iff (l : List (String × J)) (k : String) :
    lookupJ l k = none ↔ k ∉ keysOf l := by
  induction l with
  | nil => simp [lookupJ, keysOf]
  | cons kv rest ih =>
    obtain ⟨k2, v2⟩ := kv
    by_cases h : k2 = k
    · subst h
      simp [lookupJ, keysOf]
    · simp [lookupJ, h, keysOf, ih, Ne.symm h]

/-- `keysOf` over a head entry. -/
theorem keysOf_cons (k : String) (v : J) (rest : List (String × J)) :
    keysOf ((k, v) :: rest) = k :: keysOf rest := rfl

/-- `setJ` on a present key keeps the key list. -/
theorem keysOf_setJ_mem (l : List (String × J)) (k : String) (v : J)
    (h : k ∈ keysOf l) : keysOf (setJ l k v) = keysOf l := by
  induction l with
  | nil => simp [keysOf] at h
  | cons kv rest ih =>
    obtain ⟨k2, v2⟩ := kv
    by_cases hk : k2 = k
    · rw [setJ, if_pos hk]
      rfl
    · rw [setJ, if_neg hk]
      have h2 : k ∈ keysOf rest := by
        rw [keysOf_cons] at h
        rcases List.mem_cons.mp h with h1 | h1
        · exact absurd h1.symm hk
        · exact h1
      rw [keysOf_cons, keysOf_cons, ih h2]

/-- `setJ` on an absent key appends it. -/
theorem keysOf_setJ_not_mem (l : List (String × J)) (k : String) (v : J)
    (h : k ∉ keysOf l) : keysOf (setJ l k v) = keysOf l ++ [k] := by
  induction l with
  | nil => simp [setJ, keysOf]
  | cons kv rest ih =>
    obtain ⟨k2, v2⟩ := kv
    have hk : k2 ≠ k := by
      intro hk
      refine h ?_
      rw [keysOf_cons, hk]
      exact List.mem_cons_self k (keysOf rest)
    have h2 : k ∉ keysOf rest := by
      intro h2
      refine h ?_
      rw [keysOf_cons]
      exact List.mem_cons_of_mem k2 h2
    rw [setJ, if_neg hk, keysOf_cons, keysOf_cons, ih h2]
    rfl

/-- Unfolding of `nodupKeys` over a head entry. -/
theorem nodupKeys_cons (k : String) (v : J) (rest : List (String × J)) :
    nodupKeys ((k, v) :: rest) = true ↔
      k ∉ keysOf rest ∧ nodupKeys rest = true := by
  simp only [nodupKeys, Bool.and_eq_true, Bool.not_eq_true']
  constructor
  · rintro ⟨h1, h2⟩
    refine ⟨?_, h2⟩
    intro hmem
    obtain ⟨⟨a, b⟩, hab, hfst⟩ := List.mem_map.mp hmem
    have hany : rest.any (fun kv => kv.1 = k) = true := by
      refine List.any_eq_true.mpr ⟨(a, b), hab, ?_⟩
      simpa using hfst
    rw [h1] at hany
    exact absurd hany (by simp)
  · rintro ⟨h1, h2⟩
    refine ⟨?_, h2⟩
    cases hany : rest.any (fun kv => kv.1 = k) with
    | false => rfl
    | true =>
      obtain ⟨kv, hkv, hfst⟩ := List.any_eq_true.mp hany
      exfalso
      refine h1 ?_
      exact List.mem_map.mpr ⟨kv, hkv, by simpa using hfst⟩

/-- `setJ` preserves key distinctness. -/
theorem nodupKeys_setJ (l : List (String × J)) (k : String) (v : J)
    (h : nodupKeys l = true) : nodupKeys (setJ l k v) = true := by
  induction l with
  | nil => simp [setJ, nodupKeys, keysOf]
  | cons kv rest ih =>
    obtain ⟨k2, v2⟩ := kv
    obtain ⟨hnotin, hrest⟩ := (nodupKeys_cons k2 v2 rest).mp h
    by_cases hk : k2 = k
    · rw [setJ, if_pos hk]
      exact (nodupKeys_cons k2 v rest).mpr ⟨hnotin, hrest⟩
    · rw [setJ, if_neg hk]
      refine (nodupKeys_cons k2 v2 (setJ rest k v)).mpr ⟨?_, ih hrest⟩
      by_cases hmem : k ∈ keysOf rest
      · rw [keysOf_setJ_mem rest k v hmem]
        exact hnotin
      · rw [keysOf_setJ_not_mem rest k v hmem]
        intro hx
        rcases List.mem_append.mp hx with hx | hx
        · exact hnotin hx
        · exact hk (List.mem_singleton.mp hx)

/-- Association lists with the same keys, distinct on the left, and equal
lookups are equal. -/
theorem assoc_ext : ∀ (l1 l2 : List (String × J)), keysOf l1 = keysOf l2 →
    nodupKeys l1 = true → (∀ k, lookupJ l1 k = lookupJ l2 k) → l1 = l2 := by
  intro l1
  induction l1 with
  | nil =>
    intro l2 hkeys _ _
    cases l2 with
    | nil => rfl
    | cons kv t2 => simp [keysOf] at hkeys
  | cons kv t1 ih =>
    intro l2 hkeys hnodup hlook
    obtain ⟨k, v1⟩ := kv
    cases l2 with
    | nil => simp [keysOf] at hkeys
    | cons kv2 t2 =>
      obtain ⟨k2, v2⟩ := kv2
      simp only [keysOf, List.map_cons, List.cons.injEq] at hkeys
      obtain ⟨hk, htkeys⟩ := hkeys
      subst hk
      obtain ⟨hnotin, hrest⟩ := (nodupKeys_cons k v1 t1).mp hnodup
      have hv : v1 = v2 := by
        have := hlook k
        simp [lookupJ] at this
        exact this
      subst hv
      have ht : t1 = t2 := by
        refine ih t2 htkeys hrest ?_
        intro k3
        by_cases h3 : k3 = k
        · subst h3
          have h1 : lookupJ t1 k3 = none :=
            (lookup_eq_none_iff t1 k3).mpr hnotin
          have h2 : lookupJ t2 k3 = none := by
            refine (lookup_eq_none_iff t2 k3).mpr ?_
            rw [show keysOf t2 = keysOf t1 from htkeys.symm]
            exact hnotin
          rw [h1, h2]
        · have hne : ¬ k = k3 := fun hh => h3 hh.symm
          have := hlook k3
          simpa [lookupJ, hne] using this
      rw [ht]

/-- Looked-up values are structurally smaller than the list. -/
theorem sizeOf_lookupJ : ∀ (l : List (String × J)) (k : String) (v : J),
    lookupJ l k = some v → sizeOf v < sizeOf l := by
  intro l
  induction l with
  | nil => intro k v h; simp [lookupJ] at h
  | cons kv rest ih =>
    intro k v h
    obtain ⟨k2, v2⟩ := kv
    by_cases hk : k2 = k
    · rw [lookupJ, if_pos hk] at h
      have hv : v2 = v := Option.some.inj h
      subst hv
      simp only [List.cons.sizeOf_spec, Prod.mk.sizeOf_spec]
      omega
    · rw [lookupJ, if_neg hk] at h
      have := ih k v h
      simp only [List.cons.sizeOf_spec, Prod.mk.sizeOf_spec]
      omega

/-- `wfF` unfolds to key distinctness plus value well-formedness. -/
theorem wfF_iff (fs : List (String × J)) :
    wfF fs = true ↔ nodupKeys fs = true ∧ wfL fs = true := by
  simp [wfF, Bool.and_eq_true]

/-- `wfJ` on an object is `wfF` of its fields. -/
theorem wfJ_obj (fs : List (String × J)) :
    wfJ (J.obj fs) = true ↔ wfF fs = true := by
  simp [wfJ, wfF]

/-- `wfL` over a head entry. -/
theorem wfL_cons (k : String) (v : J) (rest : List (String × J)) :
    wfL ((k, v) :: rest) = true ↔ wfJ v = true ∧ wfL rest = true := by
  simp [wfL, Bool.and_eq_true]

/-- Values of a well-formed field list are well-formed. -/
theorem wfL_lookup : ∀ (l : List (String × J)) (k : String) (v : J),
    wfL l = true → lookupJ l k = some v → wfJ v = true := by
  intro l
  induction l with
  | nil => intro k v _ h; simp [lookupJ] at h
  | cons kv rest ih =>
    intro k v hL h
    obtain ⟨k2, v2⟩ := kv
    obtain ⟨hv2, hrest⟩ := (wfL_cons k2 v2 rest).mp hL
    by_cases hk : k2 = k
    · rw [lookupJ, if_pos hk] at h
      rw [← Option.some.inj h]
      exact hv2
    · rw [lookupJ, if_neg hk] at h
      exact ih k v hrest h

/-- Object values of a well-formed list are well-formed field lists. -/
theorem wfF_lookup_obj (l : List (String × J)) (k : String)
    (fs : List (String × J)) (hF : wfF l = true)
    (h : lookupJ l k = some (J.obj fs)) : wfF fs = true :=
  (wfJ_obj fs).mp (wfL_lookup l k (J.obj fs) ((wfF_iff l).mp hF).2 h)

/-- A field list with distinct keys whose looked-up values are all
well-formed is well-formed. -/
theorem wfL_of_lookup : ∀ (l : List (String × J)), nodupKeys l = true →
    (∀ k v, lookupJ l k = some v → wfJ v = true) → wfL l = true := by
  intro l
  induction l with
  | nil => intro _ _; rfl
  | cons kv rest ih =>
    intro hn h
    obtain ⟨k2, v2⟩ := kv
    obtain ⟨hnotin, hrest⟩ := (nodupKeys_cons k2 v2 rest).mp hn
    refine (wfL_cons k2 v2 rest).mpr ⟨?_, ?_⟩
    · refine h k2 v2 ?_
      rw [lookupJ, if_pos rfl]
    · refine ih hrest ?_
      intro k v hl
      by_cases hk : k = k2
      · subst hk
        rw [(lookup_eq_none_iff rest k).mpr hnotin] at hl
        exact absurd hl (by simp)
      · refine h k v ?_
        rw [lookupJ, if_neg (fun hh => hk hh.symm)]
        exact hl

/-- `mergeLook` on a present override value computes `jmergeVal`. -/
theorem mergeLook_some (v : J) (dv : Option J) :
    mergeLook dv (some v) = some (jmergeVal v dv) := by
  cases v with
  | atom a =>
    cases dv with
    | none => rfl
    | some x => cases x <;> rfl
  | obj ovs =>
    cases dv with
    | none => rfl
    | some x => cases x <;> rfl

/-- The per-key characterisation of `merge_config`: the merged lookup is
`mergeLook` of the two lookups (override keys must be distinct, as in any
parsed JSON object). -/
theorem lookup_jmergeFields :
    ∀ (X D : List (String × J)) (k : String), nodupKeys X = true →
      lookupJ (jmergeFields D X) k =
        mergeLook (lookupJ D k) (lookupJ X k) := by
  intro X
  induction X with
  | nil =>
    intro D k _
    simp [jmergeFields, lookupJ, mergeLook]
  | cons kv rest ih =>
    intro D k hX
    obtain ⟨k1, v1⟩ := kv
    obtain ⟨hnotin, hrest⟩ := (nodupKeys_cons k1 v1 rest).mp hX
    rw [jmergeFields]
    by_cases hk : k1 = k
    · subst hk
      rw [ih _ k1 hrest, (lookup_eq_none_iff rest k1).mpr hnotin,
        lookup_setJ_self, lookupJ, if_pos rfl, mergeLook_some]
      rfl
    · rw [ih _ k hrest, lookup_setJ_ne D k1 k _ (fun hh => hk hh.symm),
        lookupJ, if_neg hk]

/-- `merge_config` keeps the base's keys and appends the override's new
keys in order. -/
theorem keysOf_jmergeFields :
    ∀ (X D : List (String × J)), nodupKeys X = true →
      keysOf (jmergeFields D X) =
        keysOf D ++ (keysOf X).filter (fun k => decide (k ∉ keysOf D)) := by
  intro X
  induction X with
  | nil => intro D _; simp [jmergeFields, keysOf]
  | cons kv rest ih =>
    intro D hX
    obtain ⟨k1, v1⟩ := kv
    obtain ⟨hnotin, hrest⟩ := (nodupKeys_cons k1 v1 rest).mp hX
    rw [jmergeFields, ih _ hrest, keysOf_cons, List.filter_cons]
    by_cases hmem : k1 ∈ keysOf D
    · rw [keysOf_setJ_mem D k1 _ hmem]
      simp [hmem]
    · rw [keysOf_setJ_not_mem D k1 _ hmem]
      have hfilter : (keysOf rest).filter
            (fun k => decide (k ∉ keysOf D ++ [k1])) =
          (keysOf rest).filter (fun k => decide (k ∉ keysOf D)) := by
        refine List.filter_congr ?_
        intro k hk
        have hne : k ≠ k1 := fun hh => hnotin (hh ▸ hk)
        simp [List.mem_append, hne]
      rw [hfilter]
      simp [hmem, List.append_assoc]

/-- `merge_config` preserves key distinctness of the base. -/
theorem nodupKeys_jmergeFields :
    ∀ (X D : List (String × J)), nodupKeys D = true →
      nodupKeys (jmergeFields D X) = true := by
  intro X
  induction X with
  | nil => intro D h; exact h
  | cons kv rest ih =>
    intro D h
    obtain ⟨k1, v1⟩ := kv
    rw [jmergeFields]
    exact ih _ (nodupKeys_setJ D k1 _ h)

/-- Lists have positive size (for the strong inductions below). -/
theorem one_le_sizeOf_list (l : List (String × J)) : 1 ≤ sizeOf l := by
  cases l <;> (simp; try omega)

/-- `merge_config` preserves well-formedness, by strong induction on the
combined size. -/
theorem wfF_jmergeFields_aux :
    ∀ (N : Nat) (D X : List (String × J)), sizeOf D + sizeOf X ≤ N →
      wfF D = true → wfF X = true → wfF (jmergeFields D X) = true := by
  intro N
  induction N with
  | zero =>
    intro D X hsize _ _
    have h1 := one_le_sizeOf_list D
    have h2 := one_le_sizeOf_list X
    omega
  | succ n ih =>
    intro D X hsize hD hX
    obtain ⟨hDn, hDl⟩ := (wfF_iff D).mp hD
    obtain ⟨hXn, hXl⟩ := (wfF_iff X).mp hX
    refine (wfF_iff _).mpr ⟨nodupKeys_jmergeFields X D hDn, ?_⟩
    refine wfL_of_lookup _ (nodupKeys_jmergeFields X D hDn) ?_
    intro k v hv
    rw [lookup_jmergeFields X D k hXn] at hv
    cases hXk : lookupJ X k with
    | none =>
      rw [hXk] at hv
      exact wfL_lookup D k v hDl hv
    | some x =>
      rw [hXk, mergeLook_some] at hv
      have hveq : jmergeVal x (lookupJ D k) = v := Option.some.inj hv
      have hx : wfJ x = true := wfL_lookup X k x hXl hXk
      rw [← hveq]
      cases x with
      | atom a => exact hx
      | obj xb =>
        cases hDk : lookupJ D k with
        | none => exact hx
        | some dvv =>
          cases dvv with
          | atom b => exact hx
          | obj db =>
            rw [show jmergeVal (J.obj xb) (some (J.obj db)) =
              J.obj (jmergeFields db xb) from rfl, wfJ_obj]
            have hdb : wfF db = true := wfF_lookup_obj D k db hD hDk
            have hxb : wfF xb = true := (wfJ_obj xb).mp hx
            have hsz1 : sizeOf db < sizeOf D := by
              have := sizeOf_lookupJ D k _ hDk
              simp only [J.obj.sizeOf_spec] at this
              omega
            have hsz2 : sizeOf xb < sizeOf X := by
              have := sizeOf_lookupJ X k _ hXk
              simp only [J.obj.sizeOf_spec] at this
              omega
            exact ih db xb (by omega) hdb hxb

/-- `merge_config` preserves well-formedness. -/
theorem wfF_jmergeFields (D X : List (String × J)) (hD : wfF D = true)
    (hX : wfF X = true) : wfF (jmergeFields D X) = true :=
  wfF_jmergeFields_aux (sizeOf D + sizeOf X) D X le_rfl hD hX

/-- Absorption: re-merging the defaults into an already-merged
configuration changes nothing (strong induction on the defaults' size). -/
theorem jmerge_absorb_aux :
    ∀ (N : Nat) (D r : List (String × J)), sizeOf D ≤ N →
      wfF D = true → wfF r = true →
      jmergeFields D (jmergeFields D r) = jmergeFields D r := by
  intro N
  induction N with
  | zero =>
    intro D r hsize _ _
    have h1 := one_le_sizeOf_list D
    omega
  | succ n ih =>
    intro D r hsize hD hr
    obtain ⟨hDn, hDl⟩ := (wfF_iff D).mp hD
    obtain ⟨hrn, hrl⟩ := (wfF_iff r).mp hr
    have hMn : nodupKeys (jmergeFields D r) = true :=
      nodupKeys_jmergeFields r D hDn
    refine assoc_ext _ _ ?_ (nodupKeys_jmergeFields _ D hDn) ?_
    · rw [keysOf_jmergeFields _ D hMn, keysOf_jmergeFields r D hrn,
        List.filter_append]
      have h1 : (keysOf D).filter (fun k => decide (k ∉ keysOf D)) = [] := by
        refine List.filter_eq_nil_iff.mpr ?_
        intro a ha
        simp [ha]
      have h2 : ((keysOf r).filter (fun k => decide (k ∉ keysOf D))).filter
            (fun k => decide (k ∉ keysOf D)) =
          (keysOf r).filter (fun k => decide (k ∉ keysOf D)) := by
        rw [List.filter_filter]
        refine List.filter_congr ?_
        intro a _
        exact Bool.and_self _
      rw [h1, h2]
      simp
    · intro k
      rw [lookup_jmergeFields _ D k hMn, lookup_jmergeFields r D k hrn]
      cases hrk : lookupJ r k with
      | none =>
        cases hDk : lookupJ D k with
        | none => rfl
        | some dvv =>
          cases dvv with
          | atom a => rfl
          | obj db =>
            have hdb : wfF db = true := wfF_lookup_obj D k db hD hDk
            have hsz : sizeOf db < sizeOf D := by
              have := sizeOf_lookupJ D k _ hDk
              simp only [J.obj.sizeOf_spec] at this
              omega
            have habs := ih db [] (by omega) hdb rfl
            have hself : jmergeFields db db = db := habs
            show some (J.obj (jmergeFields db db)) = some (J.obj db)
            rw [hself]
      | some x =>
        rw [mergeLook_some, mergeLook_some]
        cases x with
        | atom a => rfl
        | obj xb =>
          cases hDk : lookupJ D k with
          | none => rfl
          | some dvv =>
            cases dvv with
            | atom b => rfl
            | obj db =>
              have hdb : wfF db = true := wfF_lookup_obj D k db hD hDk
              have hxb : wfF xb = true := wfF_lookup_obj r k xb hr hrk
              have hsz : sizeOf db < sizeOf D := by
                have := sizeOf_lookupJ D k _ hDk
                simp only [J.obj.sizeOf_spec] at this
                omega
              have habs := ih db xb (by omega) hdb hxb
              show some (J.obj (jmergeFields db (jmergeFields db xb))) =
                some (J.obj (jmergeFields db xb))
              rw [habs]

/-- Absorption: `merge_config(D, merge_config(D, r)) = merge_config(D, r)`
for well-formed inputs. -/
theorem jmerge_absorb (D r : List (String × J)) (hD : wfF D = true)
    (hr : wfF r = true) :
    jmergeFields D (jmergeFields D r) = jmergeFields D r :=
  jmerge_absorb_aux (sizeOf D) D r le_rfl hD hr

/-- The `POST /config` merge leaves keys it does not mention unchanged. -/
theorem lookup_updateConfigMerge_not_mem :
    ∀ (P cur : List (String × J)) (k : String), k ∉ keysOf P →
      lookupJ (updateConfigMerge cur P) k = lookupJ cur k := by
  intro P
  induction P with
  | nil => intro cur k _; rfl
  | cons kv rest ih =>
    intro cur k hk
    obtain ⟨k1, v1⟩ := kv
    have hne : k ≠ k1 := by
      intro hh
      refine hk ?_
      rw [keysOf_cons, hh]
      exact List.mem_cons_self _ _
    have hk2 : k ∉ keysOf rest := by
      intro hh
      refine hk ?_
      rw [keysOf_cons]
      exact List.mem_cons_of_mem _ hh
    rw [updateConfigMerge, ih _ k hk2, lookup_setJ_ne _ _ _ _ hne]

/-- The `POST /config` merge assigns `ucmVal` for each mentioned key. -/
theorem lookup_updateConfigMerge_mem :
    ∀ (P cur : List (String × J)) (k : String) (v : J), nodupKeys P = true →
      lookupJ P k = some v →
      lookupJ (updateConfigMerge cur P) k =
        some (ucmVal v (lookupJ cur k)) := by
  intro P
  induction P with
  | nil => intro cur k v _ h; simp [lookupJ] at h
  | cons kv rest ih =>
    intro cur k v hn h
    obtain ⟨k1, v1⟩ := kv
    obtain ⟨hnotin, hrest⟩ := (nodupKeys_cons k1 v1 rest).mp hn
    by_cases hk : k1 = k
    · subst hk
      rw [lookupJ, if_pos rfl] at h
      have hv : v1 = v := Option.some.inj h
      subst hv
      rw [updateConfigMerge, lookup_updateConfigMerge_not_mem rest _ k1 hnotin,
        lookup_setJ_self]
    · rw [lookupJ, if_neg hk] at h
      rw [updateConfigMerge, ih _ k v hrest h,
        lookup_setJ_ne _ _ _ _ (fun hh => hk hh.symm)]

/-- `dict.update` leaves unmentioned keys unchanged. -/
theorem lookup_dictUpdate_not_mem :
    ∀ (P cvs : List (String × J)) (k : String), k ∉ keysOf P →
      lookupJ (dictUpdate cvs P) k = lookupJ cvs k := by
  intro P
  induction P with
  | nil => intro cvs k _; rfl
  | cons kv rest ih =>
    intro cvs k hk
    obtain ⟨k1, v1⟩ := kv
    have hne : k ≠ k1 := by
      intro hh
      refine hk ?_
      rw [keysOf_cons, hh]
      exact List.mem_cons_self _ _
    have hk2 : k ∉ keysOf rest := by
      intro hh
      refine hk ?_
      rw [keysOf_cons]
      exact List.mem_cons_of_mem _ hh
    rw [dictUpdate, ih _ k hk2, lookup_setJ_ne _ _ _ _ hne]

/-- `dict.update` assigns mentioned keys wholesale. -/
theorem lookup_dictUpdate_mem :
    ∀ (P cvs : List (String × J)) (k : String) (v : J), nodupKeys P = true →
      lookupJ P k = some v → lookupJ (dictUpdate cvs P) k = some v := by
  intro P
  induction P with
  | nil => intro cvs k v _ h; simp [lookupJ] at h
  | cons kv rest ih =>
    intro cvs k v hn h
    obtain ⟨k1, v1⟩ := kv
    obtain ⟨hnotin, hrest⟩ := (nodupKeys_cons k1 v1 rest).mp hn
    by_cases hk : k1 = k
    · subst hk
      rw [lookupJ, if_pos rfl] at h
      have hv : v1 = v := Option.some.inj h
      subst hv
      rw [dictUpdate, lookup_dictUpdate_not_mem rest _ k1 hnotin,
        lookup_setJ_self]
    · rw [lookupJ, if_neg hk] at h
      rw [dictUpdate, ih _ k v hrest h]

/-- `updateConfigMerge` preserves key distinctness. -/
theorem nodupKeys_updateConfigMerge :
    ∀ (P cur : List (String × J)), nodupKeys cur = true →
      nodupKeys (updateConfigMerge cur P) = true := by
  intro P
  induction P with
  | nil => intro cur h; exact h
  | cons kv rest ih =>
    intro cur h
    obtain ⟨k1, v1⟩ := kv
    rw [updateConfigMerge]
    exact ih _ (nodupKeys_setJ cur k1 _ h)

/-- `dictUpdate` preserves key distinctness. -/
theorem nodupKeys_dictUpdate :
    ∀ (P cvs : List (String × J)), nodupKeys cvs = true →
      nodupKeys (dictUpdate cvs P) = true := by
  intro P
  induction P with
  | nil => intro cvs h; exact h
  | cons kv rest ih =>
    intro cvs h
    obtain ⟨k1, v1⟩ := kv
    rw [dictUpdate]
    exact ih _ (nodupKeys_setJ cvs k1 _ h)

/-- Claim C8 (amended): `POST /config` followed by `GET /config`, for
well-formed stored layer `raw` and posted object `p` over the defaults
`D`, satisfies — (i) every top-level key not mentioned in `p` reads back
unchanged; (ii) every top-level key posted with a non-dict value reads
back as exactly that value; (iii) for a top-level key where both the
posted and the current value are dicts, the merge is one level deep:
posted second-level non-dict entries read back exactly, and second-level
keys not mentioned in the posted dict are preserved.  (Keys at depth ≥ 3
beneath a second-level entry overwritten by `p` may be dropped, since the
endpoint merge is shallow — see the counterexample.) -/
theorem c8_config_roundtrip_amended
    (D raw p : List (String × J))
    (hD : wfF D = true) (hraw : wfF raw = true) (hp : wfF p = true) :
    (∀ k, k ∉ keysOf p →
      lookupJ (getAfterPost D (some raw) p) k =
        lookupJ (loadConfig D (some raw)) k) ∧
    (∀ k a, lookupJ p k = some (J.atom a) →
      lookupJ (getAfterPost D (some raw) p) k = some (J.atom a)) ∧
    (∀ k pvs cvs, lookupJ p k = some (J.obj pvs) →
      lookupJ (loadConfig D (some raw)) k = some (J.obj cvs) →
      ∃ avs, lookupJ (getAfterPost D (some raw) p) k = some (J.obj avs) ∧
        (∀ k2 a2, lookupJ pvs k2 = some (J.atom a2) →
          lookupJ avs k2 = some (J.atom a2)) ∧
        (∀ k2, k2 ∉ keysOf pvs → lookupJ avs k2 = lookupJ cvs k2)) := by
  have hDn := ((wfF_iff D).mp hD).1
  have hrawn := ((wfF_iff raw).mp hraw).1
  have hpn := ((wfF_iff p).mp hp).1
  have hbeforeWf : wfF (jmergeFields D raw) = true :=
    wfF_jmergeFields D raw hD hraw
  have hbeforen : nodupKeys (jmergeFields D raw) = true :=
    ((wfF_iff _).mp hbeforeWf).1
  have hstoredn :
      nodupKeys (updateConfigMerge (jmergeFields D raw) p) = true :=
    nodupKeys_updateConfigMerge p _ hbeforen
  have hafter_eq : getAfterPost D (some raw) p =
      jmergeFields D (updateConfigMerge (jmergeFields D raw) p) := rfl
  have hbefore_eq : loadConfig D (some raw) = jmergeFields D raw := rfl
  refine ⟨?_, ?_, ?_⟩
  · intro k hk
    rw [hafter_eq, hbefore_eq, lookup_jmergeFields _ D k hstoredn,
      lookup_updateConfigMerge_not_mem p _ k hk]
    have hpt : lookupJ (jmergeFields D (jmergeFields D raw)) k =
        lookupJ (jmergeFields D raw) k := by
      rw [jmerge_absorb D raw hD hraw]
    rw [lookup_jmergeFields _ D k hbeforen] at hpt
    exact hpt
  · intro k a hpk
    rw [hafter_eq, lookup_jmergeFields _ D k hstoredn,
      lookup_updateConfigMerge_mem p _ k _ hpn hpk, mergeLook_some]
    rfl
  · intro k pvs cvs hpk hbk
    rw [hbefore_eq] at hbk
    have hUc : lookupJ (updateConfigMerge (jmergeFields D raw) p) k =
        some (J.obj (dictUpdate cvs pvs)) := by
      rw [lookup_updateConfigMerge_mem p _ k _ hpn hpk, hbk]
      rfl
    have hcvsWf : wfF cvs = true := wfF_lookup_obj _ k cvs hbeforeWf hbk
    have hcvsn : nodupKeys cvs = true := ((wfF_iff cvs).mp hcvsWf).1
    have hpvsWf : wfF pvs = true := wfF_lookup_obj p k pvs hp hpk
    have hpvsn := ((wfF_iff pvs).mp hpvsWf).1
    have hUn : nodupKeys (dictUpdate cvs pvs) = true :=
      nodupKeys_dictUpdate pvs cvs hcvsn
    rw [hafter_eq, lookup_jmergeFields _ D k hstoredn, hUc, mergeLook_some]
    cases hDk : lookupJ D k with
    | none =>
      refine ⟨dictUpdate cvs pvs, rfl, ?_, ?_⟩
      · intro k2 a2 h2
        exact lookup_dictUpdate_mem pvs cvs k2 _ hpvsn h2
      · intro k2 h2
        exact lookup_dictUpdate_not_mem pvs cvs k2 h2
    | some dvv =>
      cases dvv with
      | atom b =>
        refine ⟨dictUpdate cvs pvs, rfl, ?_, ?_⟩
        · intro k2 a2 h2
          exact lookup_dictUpdate_mem pvs cvs k2 _ hpvsn h2
        · intro k2 h2
          exact lookup_dictUpdate_not_mem pvs cvs k2 h2
      | obj db =>
        have hdbWf : wfF db = true := wfF_lookup_obj D k db hD hDk
        have hdbn : nodupKeys db = true := ((wfF_iff db).mp hdbWf).1
        refine ⟨jmergeFields db (dictUpdate cvs pvs), rfl, ?_, ?_⟩
        · intro k2 a2 h2
          rw [lookup_jmergeFields _ db k2 hUn,
            lookup_dictUpdate_mem pvs cvs k2 _ hpvsn h2, mergeLook_some]
          rfl
        · intro k2 h2
          rw [lookup_jmergeFields _ db k2 hUn,
            lookup_dictUpdate_not_mem pvs cvs k2 h2]
          have hbk2 : mergeLook (some (J.obj db)) (lookupJ raw k) =
              some (J.obj cvs) := by
            rw [← hDk, ← lookup_jmergeFields raw D k hrawn]
            exact hbk
          cases hrk : lookupJ raw k with
          | none =>
            rw [hrk] at hbk2
            have hdc : db = cvs := by
              have h3 : J.obj db = J.obj cvs := Option.some.inj hbk2
              injection h3
            have hself : jmergeFields db db = db :=
              jmerge_absorb db [] hdbWf rfl
            have hpt : lookupJ (jmergeFields db db) k2 = lookupJ db k2 := by
              rw [hself]
            rw [lookup_jmergeFields db db k2 hdbn] at hpt
            rw [← hdc]
            exact hpt
          | some x =>
            rw [hrk, mergeLook_some] at hbk2
            cases x with
            | atom ax =>
              exfalso
              have h3 := Option.some.inj hbk2
              simp [jmergeVal] at h3
            | obj rb =>
              have hc : jmergeFields db rb = cvs := by
                have h3 : J.obj (jmergeFields db rb) = J.obj cvs :=
                  Option.some.inj hbk2
                injection h3
              have hrbWf : wfF rb = true := wfF_lookup_obj raw k rb hraw hrk
              have hpt : lookupJ (jmergeFields db (jmergeFields db rb)) k2 =
                  lookupJ (jmergeFields db rb) k2 := by
                rw [jmerge_absorb db rb hdbWf hrbWf]
              rw [lookup_jmergeFields _ db k2
                (nodupKeys_jmergeFields rb db hdbn)] at hpt
              rw [← hc]
              exact hpt

/-- Claim C8 counterexample: the round trip is not a faithful deep merge —
a depth-3 key of the stored configuration (`llm.profiles.b`) that the
posted object never mentions is dropped, because the endpoint merges only
one level deep (`current[key].update(value)`). -/
theorem c8_config_roundtrip_counterexample :
    getPath (J.obj c8post) ["llm", "profiles", "b"] = none ∧
    getPath (J.obj (loadConfig defaultConfig (some c8raw)))
      ["llm", "profiles", "b"] = some (.atom "2") ∧
    getPath (J.obj (getAfterPost defaultConfig (some c8raw) c8post))
      ["llm", "profiles", "b"] = none ∧
    getPath (J.obj (getAfterPost defaultConfig (some c8raw) c8post))
      ["llm", "profiles", "a"] = some (.atom "1") := by
  refine ⟨rfl, rfl, rfl, rfl⟩

/-- Witness for C8 (amended) on the real `DEFAULT_CONFIG`: a posted update
of `target_lang` and `paddleocr.max_side` reads back merged, while
`hotkey` and the untouched `paddleocr` entries are preserved. -/
theorem c8_config_roundtrip_witness :
    lookupJ (getAfterPost defaultConfig (some c8raw) c8wpost) "hotkey" =
      lookupJ (loadConfig defaultConfig (some c8raw)) "hotkey" ∧
    lookupJ (getAfterPost defaultConfig (some c8raw) c8wpost)
      "target_lang" = some (.atom "ja") ∧
    (∃ avs,
      lookupJ (getAfterPost defaultConfig (some c8raw) c8wpost)
        "paddleocr" = some (J.obj avs) ∧
      (∀ k2 a2, lookupJ [("max_side", J.atom "1200")] k2 =
          some (J.atom a2) → lookupJ avs k2 = some (J.atom a2)) ∧
      (∀ k2, k2 ∉ keysOf [("max_side", J.atom "1200")] →
        lookupJ avs k2 = lookupJ paddleDefaults k2)) := by
  have h := c8_config_roundtrip_amended defaultConfig c8raw c8wpost
    rfl rfl rfl
  exact ⟨h.1 "hotkey" (by decide),
    h.2.1 "target_lang" "ja" rfl,
    h.2.2 "paddleocr" [("max_side", J.atom "1200")] paddleDefaults rfl rfl⟩

/-- Witness for C4 (amended) from the fresh process state. -/
theorem c4_loading_status_witness :
    (loadingStatus (bgOcrStart initSvcState)).ocr.loading = true ∧
    (loadingStatus (bgOcrPhase (.success "mobile_en") initSvcState)).ocr.ready
      = true ∧
    (loadingStatus (bgOcrPhase (.failure "下载失败") initSvcState)).error =
      some ("OCR 加载失败: " ++ "下载失败") := by
  have h := c4_loading_status_amended initSvcState "mobile_en" "下载失败"
    rfl rfl rfl
  exact ⟨h.1, h.2.2.2.1, h.2.2.2.2.2.2.1⟩

end RSTA
